import Mathlib

/-!
# Tree patterns: a verification development

Shallow embedding of the snippets of `tree_patterns.cpp` and proofs of their
contracts.  A `TreeNode*` of the source (a possibly null pointer to an
exclusively owned node) is a value of the inductive type `TreeNode`; the null
pointer is `TreeNode.nil`.  Values are C++ `int`s, embedded as `Int`; none of
the functions below does arithmetic on node values.
-/

namespace TreePatterns

/-- A `TreeNode*`: either the null pointer or a node with a value and two owned children. -/
inductive TreeNode where
  | nil : TreeNode
  | node (val : Int) (left right : TreeNode) : TreeNode
  deriving DecidableEq, Repr

/-- Number of nodes of a tree. -/
def TreeNode.size : TreeNode → Nat
  | .nil => 0
  | .node _ l r => l.size + 1 + r.size

/-- Preorder sequence (node, left, right) of a tree. -/
def preorderSeq : TreeNode → List Int
  | .nil => []
  | .node v l r => v :: (preorderSeq l ++ preorderSeq r)

/-- Inorder sequence (left, node, right) of a tree. -/
def inorderSeq : TreeNode → List Int
  | .nil => []
  | .node v l r => inorderSeq l ++ v :: inorderSeq r

/-- Source `inorder(root, res)`: the vector `res` is passed in and the extended vector returned. -/
def inorder : TreeNode → List Int → List Int
  | .nil, res => res
  | .node v l r, res => inorder r (inorder l res ++ [v])

/-! ## Reconstruction from preorder and inorder -/

/-- Outcome of running a recursive snippet with a recursion budget: a returned
value, the budget used up (the source would still be running), or a vector read
out of bounds in the source. -/
inductive Run (α : Type) where
  | ok (a : α) : Run α
  | fuel : Run α
  | bounds : Run α
  deriving DecidableEq, Repr

/-- A `std::unordered_map<int, int>`: a list of key/value entries with distinct keys. -/
abbrev InMap := List (Int × Int)

/-- The statement `inMap[k] = v`: the entry of `k` is created or overwritten. -/
def InMap.assign (m : InMap) (k v : Int) : InMap :=
  (k, v) :: m.filter (fun e => e.1 != k)

/-- The expression `inMap[k]` read as a value: a missing key is inserted with value `0`. -/
def InMap.index (m : InMap) (k : Int) : Int × InMap :=
  match m.lookup k with
  | some v => (v, m)
  | none => (0, (k, 0) :: m)

/-- The loop `for (i = 0; i < inorder.size(); ++i) inMap[inorder[i]] = i`, started at index `i`. -/
def fillInMap : List Int → Nat → InMap → InMap
  | [], _, m => m
  | x :: xs, i, m => fillInMap xs (i + 1) (m.assign x (i : Int))

/-- Source `buildTreeHelper`.  Indices are C++ `int`s, embedded as `Int`; the map is
passed by reference, so it is threaded through the calls. -/
def buildTreeHelper : Nat → List Int → Int → Int → List Int → Int → Int → InMap →
    Run (TreeNode × InMap)
  | 0, _, _, _, _, _, _, _ => .fuel
  | fuel + 1, preorder, preStart, preEnd, inord, inStart, inEnd, inMap =>
    if preStart > preEnd ∨ inStart > inEnd then .ok (.nil, inMap)
    else if preStart < 0 then .bounds
    else
      match preorder[preStart.toNat]? with
      | none => .bounds
      | some rootVal =>
        let inRoot := (inMap.index rootVal).1
        let inMap1 := (inMap.index rootVal).2
        let numsLeft := inRoot - inStart
        match buildTreeHelper fuel preorder (preStart + 1) (preStart + numsLeft)
            inord inStart (inRoot - 1) inMap1 with
        | .fuel => .fuel
        | .bounds => .bounds
        | .ok (l, inMap2) =>
          match buildTreeHelper fuel preorder (preStart + numsLeft + 1) preEnd
              inord (inRoot + 1) inEnd inMap2 with
          | .fuel => .fuel
          | .bounds => .bounds
          | .ok (r, inMap3) => .ok (.node rootVal l r, inMap3)

/-- Source `buildTree`; `size() - 1` of an empty vector converts to the `int` `-1`. -/
def buildTree (fuel : Nat) (preorder inord : List Int) : Run TreeNode :=
  match buildTreeHelper fuel preorder 0 ((preorder.length : Int) - 1)
      inord 0 ((inord.length : Int) - 1) (fillInMap inord 0 []) with
  | .fuel => .fuel
  | .bounds => .bounds
  | .ok (t, _) => .ok t

/-! ## Positions in a tree -/

/-- One step from a node to a child. -/
inductive Dir where
  | L : Dir
  | R : Dir
  deriving DecidableEq, Repr

/-- The position of a node: the steps leading to it from the root.  A node pointer of the
source is identified with the position of the node it points to. -/
abbrev Path := List Dir

/-- The subtree found at a position (`nil` when the position leaves the tree). -/
def subtreeAt : TreeNode → Path → TreeNode
  | t, [] => t
  | .nil, _ :: _ => .nil
  | .node _ l _, .L :: p => subtreeAt l p
  | .node _ _ r, .R :: p => subtreeAt r p

/-- Value `root->val` of a present node. -/
def rootVal : TreeNode → Option Int
  | .nil => none
  | .node v _ _ => some v

/-- Child `root->left` of a present node. -/
def leftOf : TreeNode → TreeNode
  | .nil => .nil
  | .node _ l _ => l

/-- Child `root->right` of a present node. -/
def rightOf : TreeNode → TreeNode
  | .nil => .nil
  | .node _ _ r => r

/-! ## Binary search trees -/

/-- The strict BST invariant: each value is above every value of the left subtree and
below every value of the right subtree. -/
def isBST : TreeNode → Prop
  | .nil => True
  | .node v l r =>
    (∀ x ∈ inorderSeq l, x < v) ∧ (∀ x ∈ inorderSeq r, v < x) ∧ isBST l ∧ isBST r

/-- The BST invariant can be checked by evaluation. -/
instance decIsBST : (t : TreeNode) → Decidable (isBST t)
  | .nil => isTrue trivial
  | .node v l r =>
    have := decIsBST l
    have := decIsBST r
    inferInstanceAs (Decidable
      ((∀ x ∈ inorderSeq l, x < v) ∧ (∀ x ∈ inorderSeq r, v < x) ∧ isBST l ∧ isBST r))

/-- The walk `while (pred->right) pred = pred->right` followed by the store
`pred->right = sub`: it follows right links from `t` and fills the first null one. -/
def attachRight : TreeNode → TreeNode → TreeNode
  | .nil, sub => sub
  | .node v l r, sub => .node v l (attachRight r sub)

/-- Number of right links the walk `while (pred->right) pred = pred->right` follows from `t`. -/
def rightSteps : TreeNode → Nat
  | .nil => 0
  | .node _ _ .nil => 0
  | .node _ _ (.node rv rl rr) => rightSteps (.node rv rl rr) + 1

/-- Source `deleteNode`. -/
def deleteNode : TreeNode → Int → TreeNode
  | .nil, _ => .nil
  | .node v l r, key =>
    if v = key then
      match l with
      | .nil => r
      | .node lv ll lr => attachRight (.node lv ll lr) r
    else if v < key then .node v l (deleteNode r key)
    else .node v (deleteNode l key) r

/-! ## Serialization -/

/-- The character of a decimal digit `d < 10`. -/
def digitChar (d : Nat) : Char := Char.ofNat (48 + d)

/-- Decimal digits of `n`, least significant first; `fuel` bounds their number. -/
def decimalRev : Nat → Nat → List Char
  | 0, _ => []
  | fuel + 1, n =>
    if n < 10 then [digitChar n] else digitChar (n % 10) :: decimalRev fuel (n / 10)

/-- Library `std::to_string(int)`: the decimal digits, after a minus sign for a negative value. -/
def to_string (v : Int) : String :=
  if v < 0 then String.mk ('-' :: (decimalRev (v.natAbs + 1) v.natAbs).reverse)
  else String.mk (decimalRev (v.natAbs + 1) v.natAbs).reverse

/-- Source `serialize`. -/
def serialize : TreeNode → String
  | .nil => "#null"
  | .node v l r => "#" ++ to_string v ++ serialize l ++ serialize r

/-- Value of a decimal digit character. -/
def digitVal (c : Char) : Nat := c.toNat - 48

/-- Reads a run of decimal digits into the accumulator. -/
def readNat : List Char → Nat → Nat × List Char
  | [], acc => (acc, [])
  | c :: cs, acc => if c.isDigit then readNat cs (acc * 10 + digitVal c) else (acc, c :: cs)

/-- Decoder for the output of `serialize`, used to show that it is reversible (the source
has no decoder): it reads one tree from the front of the characters. -/
def parseTree : Nat → List Char → Option (TreeNode × List Char)
  | 0, _ => none
  | fuel + 1, cs =>
    match cs with
    | [] => none
    | c :: rest =>
      if c ≠ '#' then none
      else if rest.take 4 = ['n', 'u', 'l', 'l'] then some (.nil, rest.drop 4)
      else
        let neg := rest.head? = some '-'
        let body := if neg then rest.drop 1 else rest
        let num := readNat body 0
        match parseTree fuel num.2 with
        | none => none
        | some (l, rest2) =>
          match parseTree fuel rest2 with
          | none => none
          | some (r, rest3) =>
            some (.node (if neg then -(num.1 : Int) else (num.1 : Int)) l r, rest3)

/-- Decoder of a whole string. -/
def deserialize (s : String) : Option TreeNode :=
  match parseTree (s.length + 1) s.data with
  | some (t, []) => some t
  | _ => none

/-! ## Lowest common ancestor -/

/-- Source `lowestCommonAncestor`.  The pointer `root` is the subtree together with its
position `cur`; the targets `p` and `q` are positions; the result is the position of the
returned node, `none` for the null pointer. -/
def lowestCommonAncestor : TreeNode → Path → Path → Path → Option Path
  | .nil, _, _, _ => none
  | .node _ l r, cur, p, q =>
    if cur = p ∨ cur = q then some cur
    else
      let left := lowestCommonAncestor l (cur ++ [Dir.L]) p q
      let right := lowestCommonAncestor r (cur ++ [Dir.R]) p q
      if left.isSome ∧ right.isSome then some cur
      else if left.isSome then left else right

/-! ## BST reconstruction from preorder -/

/-- Source `buildBST`.  The cursor `idx`, passed by reference, is returned next to the
tree; it is an `int` that is only ever incremented from a non-negative start, embedded
as `Nat`.  A read past the end of the vector is reported as `bounds`. -/
def buildBST : Nat → List Int → Nat → Int → Run (TreeNode × Nat)
  | 0, _, _, _ => .fuel
  | fuel + 1, preorder, idx, bound =>
    if idx = preorder.length then .ok (.nil, idx)
    else
      match preorder[idx]? with
      | none => .bounds
      | some v =>
        if v > bound then .ok (.nil, idx)
        else
          match buildBST fuel preorder (idx + 1) v with
          | .fuel => .fuel
          | .bounds => .bounds
          | .ok (l, idx1) =>
            match buildBST fuel preorder idx1 bound with
            | .fuel => .fuel
            | .bounds => .bounds
            | .ok (r, idx2) => .ok (.node v l r, idx2)

/-! ## Height and level order -/

/-- Source `treeHeight`. -/
def treeHeight : TreeNode → Int
  | .nil => -1
  | .node _ l r => 1 + max (treeHeight l) (treeHeight r)

/-- The guarded push `if (child) q.push(child)`: what it appends to the queue. -/
def pushed : TreeNode → List TreeNode
  | .nil => []
  | .node v l r => [.node v l r]

/-- The `for` loop of `levelOrder`, with the number of iterations left, the queue and the
level under construction.  The queue holds pointers to present nodes and the loop runs
`q.size()` times, so the second and third cases are never reached. -/
def levelPass : Nat → List TreeNode → List Int → List TreeNode × List Int
  | 0, q, lvl => (q, lvl)
  | _ + 1, [], lvl => ([], lvl)
  | i + 1, .nil :: q, lvl => levelPass i q lvl
  | i + 1, .node v l r :: q, lvl => levelPass i (q ++ pushed l ++ pushed r) (lvl ++ [v])

/-- The `while (!q.empty())` loop of `levelOrder`. -/
def levelOrderLoop : Nat → List TreeNode → List (List Int) → Run (List (List Int))
  | 0, _, _ => .fuel
  | fuel + 1, q, res =>
    if q.isEmpty then .ok res
    else levelOrderLoop fuel (levelPass q.length q []).1 (res ++ [(levelPass q.length q []).2])

/-- Source `levelOrder`. -/
def levelOrder (fuel : Nat) (root : TreeNode) : Run (List (List Int)) :=
  match root with
  | .nil => .ok []
  | .node v l r => levelOrderLoop fuel [.node v l r] []

/-- Values of the nodes at depth `d`, left to right. -/
def valuesAtDepth : Nat → TreeNode → List Int
  | _, .nil => []
  | 0, .node v _ _ => [v]
  | d + 1, .node _ l r => valuesAtDepth d l ++ valuesAtDepth d r

/-- Number of levels of a tree: `treeHeight + 1` as a natural number. -/
def levelCount : TreeNode → Nat
  | .nil => 0
  | .node _ l r => 1 + max (levelCount l) (levelCount r)

/-- Largest number of levels among the trees of a queue. -/
def queueLevels : List TreeNode → Nat
  | [] => 0
  | t :: q => max (levelCount t) (queueLevels q)

/-- The present children of every node of a queue, in order. -/
def childrenOf : List TreeNode → List TreeNode
  | [] => []
  | t :: q => pushed (leftOf t) ++ pushed (rightOf t) ++ childrenOf q

/-- Values at depth `d` over the trees of a queue, in order. -/
def queueValuesAtDepth (d : Nat) : List TreeNode → List Int
  | [] => []
  | t :: q => valuesAtDepth d t ++ queueValuesAtDepth d q

/-! ## Level linking -/

/-- A `Node*` of the level-linking snippet: null, or a node with a value, two owned
children and the non-owning reference `next`, held as the position of the node it
points to (`none` for the null pointer). -/
inductive Node where
  | nil : Node
  | node (val : Int) (left right : Node) (next : Option Path) : Node
  deriving DecidableEq, Repr

/-- The values and the left/right structure of a linked tree, `next` left out. -/
def shapeOf : Node → TreeNode
  | .nil => .nil
  | .node v l r _ => .node v (shapeOf l) (shapeOf r)

/-- The node found at a position of a linked tree. -/
def nodeAt : Node → Path → Node
  | t, [] => t
  | .nil, _ :: _ => .nil
  | .node _ l _ _, .L :: p => nodeAt l p
  | .node _ _ r _, .R :: p => nodeAt r p

/-- The `next` field of the node at a position (`none` when there is no node there). -/
def nextAt (t : Node) (p : Path) : Option (Option Path) :=
  match nodeAt t p with
  | .nil => none
  | .node _ _ _ nx => some nx

/-- The store `p->next = x` for the node at position `p`. -/
def setNext : Node → Path → Option Path → Node
  | .nil, _, _ => .nil
  | .node v l r _, [], x => .node v l r x
  | .node v l r nx, .L :: p, x => .node v (setNext l p x) r nx
  | .node v l r nx, .R :: p, x => .node v l (setNext r p x) nx

/-- The guarded push `if (child) q.push(child)` for the child at position `p`. -/
def pushedAt : Node → Path → List Path
  | .nil, _ => []
  | .node _ _ _ _, p => [p]

/-- What the two guarded pushes append to the queue for the node at position `p`. -/
def kidsAt (t : Node) (p : Path) : List Path :=
  match nodeAt t p with
  | .nil => []
  | .node _ l r _ => pushedAt l (p ++ [Dir.L]) ++ pushedAt r (p ++ [Dir.R])

/-- The guarded store `if (prev) prev->next = node`. -/
def linkPrev (t : Node) (prev : Option Path) (node : Path) : Node :=
  match prev with
  | some pv => setNext t pv (some node)
  | none => t

/-- The `for` loop of `connect`: iterations left, the tree, the queue and `prev`.  The
loop runs `q.size()` times, so the case of an empty queue is never reached. -/
def connectPass : Nat → Node → List Path → Option Path → Node × List Path × Option Path
  | 0, t, q, prev => (t, q, prev)
  | _ + 1, t, [], prev => (t, [], prev)
  | i + 1, t, node :: q, prev =>
    connectPass i (linkPrev t prev node) (q ++ kidsAt (linkPrev t prev node) node) (some node)

/-- The store `prev->next = nullptr` after the `for` loop. -/
def closeLevel (t : Node) (prev : Option Path) : Node :=
  match prev with
  | some pv => setNext t pv none
  | none => t

/-- The `while (!q.empty())` loop of `connect`. -/
def connectLoop : Nat → Node → List Path → Run Node
  | 0, _, _ => .fuel
  | fuel + 1, t, q =>
    if q.isEmpty then .ok t
    else
      connectLoop fuel
        (closeLevel (connectPass q.length t q none).1 (connectPass q.length t q none).2.2)
        (connectPass q.length t q none).2.1

/-- Source `connect`: the tree after the call. -/
def connect (fuel : Nat) (root : Node) : Run Node :=
  match root with
  | .nil => .ok .nil
  | .node v l r nx => connectLoop fuel (.node v l r nx) [[]]

/-- Positions of the nodes at depth `d`, left to right. -/
def positionsAtDepth : Nat → TreeNode → List Path
  | _, .nil => []
  | 0, .node _ _ _ => [[]]
  | d + 1, .node _ l r =>
    (positionsAtDepth d l).map (fun p => Dir.L :: p)
      ++ (positionsAtDepth d r).map (fun p => Dir.R :: p)

/-- The element that follows `p` in a list of positions, `none` when `p` is the last one. -/
def followerIn : List Path → Path → Option Path
  | [], _ => none
  | [_], _ => none
  | x :: y :: rest, p => if p = x then some y else followerIn (y :: rest) p

/-- The position `p` when the tree `t` is present, nothing otherwise. -/
def pushedPos : TreeNode → Path → List Path
  | .nil, _ => []
  | .node _ _ _, p => [p]

/-- Positions of the present children of the node at position `p`. -/
def kidsOfShape (t : TreeNode) (p : Path) : List Path :=
  match subtreeAt t p with
  | .nil => []
  | .node _ l r => pushedPos l (p ++ [Dir.L]) ++ pushedPos r (p ++ [Dir.R])

/-- Positions of the present children of the nodes of a queue, in order. -/
def kidsOfQueue (t : TreeNode) : List Path → List Path
  | [] => []
  | p :: q => kidsOfShape t p ++ kidsOfQueue t q

/-! ## Structural equality, inversion, BST search -/

/-- Source `isSameTree`. -/
def isSameTree : TreeNode → TreeNode → Bool
  | .nil, .nil => true
  | .nil, .node _ _ _ => false
  | .node _ _ _, .nil => false
  | .node v1 l1 r1, .node v2 l2 r2 =>
    if v1 ≠ v2 then false else isSameTree l1 l2 && isSameTree r1 r2

/-- Source `invertTree`: the children are swapped and both are inverted in place; the
value is the tree the returned pointer leads to. -/
def invertTree : TreeNode → TreeNode
  | .nil => .nil
  | .node v l r => .node v (invertTree r) (invertTree l)

/-- The tree with left and right children exchanged at every node. -/
def mirrored : TreeNode → TreeNode
  | .nil => .nil
  | .node v l r => .node v (mirrored r) (mirrored l)

/-- Source `searchBST`: the returned pointer is the subtree it leads to. -/
def searchBST : TreeNode → Int → TreeNode
  | .nil, _ => .nil
  | .node v l r, val =>
    if v = val then .node v l r
    else if val < v then searchBST l val
    else searchBST r val





/-! ## Counting BST shapes -/

/-- Two's-complement value of an integer in 32 bits: what a 32-bit `int` holds after a
result that left its range. -/
def wrap32 (x : Int) : Int := (x + 2147483648) % 4294967296 - 2147483648

/-- Whether a value lies in the range of a 32-bit `int`. -/
def inInt32 (x : Int) : Bool := -2147483648 ≤ x && x ≤ 2147483647

/-- The loop `for (root = 1; root <= nodes; ++root) dp[nodes] += dp[root-1] * dp[nodes-root]`
of `numTrees`, with the iterations left, `root`, the table `dp` and a flag.  `norm` is
applied to the product and to the sum (the identity for exact integers, `wrap32` for
32-bit ones); the flag records that every product and every sum so far was in the range
of a 32-bit `int`. -/
def numTreesInner (norm : Int → Int) (nodes : Nat) :
    Nat → Nat → List Int × Bool → List Int × Bool
  | 0, _, s => s
  | k + 1, root, (dp, fits) =>
    numTreesInner norm nodes k (root + 1)
      (dp.set nodes
        (norm (dp.getD nodes 0 + norm (dp.getD (root - 1) 0 * dp.getD (nodes - root) 0))),
       fits && inInt32 (dp.getD (root - 1) 0 * dp.getD (nodes - root) 0)
         && inInt32 (dp.getD nodes 0 + norm (dp.getD (root - 1) 0 * dp.getD (nodes - root) 0)))

/-- The loop `for (nodes = 1; nodes <= n; ++nodes)` of `numTrees`. -/
def numTreesOuter (norm : Int → Int) : Nat → Nat → List Int × Bool → List Int × Bool
  | 0, _, s => s
  | k + 1, nodes, s => numTreesOuter norm k (nodes + 1) (numTreesInner norm nodes nodes 1 s)

/-- Source `numTrees` for `n ≥ 0` over the arithmetic given by `norm`: the returned `dp[n]`
and the range flag. -/
def numTreesRun (norm : Int → Int) (n : Nat) : Int × Bool :=
  ((numTreesOuter norm n 1 ((List.replicate (n + 1) (0 : Int)).set 0 1, true)).1.getD n 0,
   (numTreesOuter norm n 1 ((List.replicate (n + 1) (0 : Int)).set 0 1, true)).2)

/-- Reference for `numTrees`: the recurrence `count(0) = 1`, `count(k) = sum over r in [1,k]
of count(r-1) * count(k-r)` run on the same loops with unbounded integers.  It is what
the source would return if `int` did not overflow, and is not what the source returns
once it does. -/
def numTreesExact (n : Nat) : Int := (numTreesRun id n).1

/-- Source `numTrees`: the table entries, the products and the sums are 32-bit signed
integers. -/
def numTrees32 (n : Nat) : Int := (numTreesRun wrap32 n).1



/-! ## Maps keyed by node pointers: heap indices and parents -/

/-- A `std::unordered_map` keyed by node pointers (positions): entries with distinct keys. -/
abbrev PtrMap (α : Type) := List (Path × α)

/-- The statement `m[k] = v`: the entry of `k` is created or overwritten. -/
def PtrMap.assign {α : Type} (m : PtrMap α) (k : Path) (v : α) : PtrMap α :=
  (k, v) :: m.filter (fun e => e.1 != k)

/-- The guarded push `if (child) q.push(x)`: what it appends to the queue. -/
def pushedWith {α : Type} : TreeNode → α → List α
  | .nil, _ => []
  | .node _ _ _, x => [x]

/-- The `while (!q.empty())` loop of `assignHeapIndex`: the queue holds pairs of a node
pointer and its index.  The index is a 32-bit `int`, so the product `i*2` and the sum
`i*2+1` are taken in 32 bits. -/
def heapIndexLoop : Nat → TreeNode → List (Path × Int) → PtrMap Int → Run (PtrMap Int)
  | 0, _, _, _ => .fuel
  | _ + 1, _, [], idx => .ok idx
  | fuel + 1, root, (node, i) :: q, idx =>
    heapIndexLoop fuel root
      (q ++ pushedWith (leftOf (subtreeAt root node)) (node ++ [Dir.L], wrap32 (i * 2))
        ++ pushedWith (rightOf (subtreeAt root node))
            (node ++ [Dir.R], wrap32 (wrap32 (i * 2) + 1)))
      (idx.assign node i)

/-- Source `assignHeapIndex`; the values of the map are 32-bit `int`s. -/
def assignHeapIndex (fuel : Nat) (root : TreeNode) : Run (PtrMap Int) :=
  match root with
  | .nil => .ok []
  | .node v l r => heapIndexLoop fuel (.node v l r) [([], 1)] []

/-- The binary-heap index of a position in unbounded integers: 1 at the root, doubled for
a left step, doubled plus one for a right step.  The source holds its 32-bit wrap. -/
def heapIndex (p : Path) : Int :=
  p.foldl (fun i d => match d with
    | .L => i * 2
    | .R => i * 2 + 1) 1

/-- A chain of `n` nodes holding 0, each the left child of the one before. -/
def leftChain : Nat → TreeNode
  | 0 => .nil
  | n + 1 => .node 0 (leftChain n) .nil

/-- Total number of nodes below the queued positions: the iterations the loop still needs. -/
def queueWeight {α : Type} (root : TreeNode) : List (Path × α) → Nat
  | [] => 0
  | e :: q => (subtreeAt root e.1).size + queueWeight root q

/-- One round of `for (child : {node->left, node->right})` in `buildParentMap`, for the
child of `node` in direction `d`: `if (child) { parent[child] = node; q.push(child); }`,
acting on the queue and the map. -/
def visitChild (root : TreeNode) (node : Path) (d : Dir)
    (s : List Path × PtrMap (Option Path)) : List Path × PtrMap (Option Path) :=
  match subtreeAt root (node ++ [d]) with
  | .nil => s
  | .node _ _ _ => (s.1 ++ [node ++ [d]], s.2.assign (node ++ [d]) (some node))

/-- The `while (!q.empty())` loop of `buildParentMap`; a parent pointer is a position,
`none` for the null pointer. -/
def parentMapLoop : Nat → TreeNode → List Path → PtrMap (Option Path) →
    Run (PtrMap (Option Path))
  | 0, _, _, _ => .fuel
  | _ + 1, _, [], parent => .ok parent
  | fuel + 1, root, node :: q, parent =>
    parentMapLoop fuel root
      (visitChild root node Dir.R (visitChild root node Dir.L (q, parent))).1
      (visitChild root node Dir.R (visitChild root node Dir.L (q, parent))).2

/-- Source `buildParentMap`. -/
def buildParentMap (fuel : Nat) (root : TreeNode) : Run (PtrMap (Option Path)) :=
  match root with
  | .nil => .ok []
  | .node v l r => parentMapLoop fuel (.node v l r) [[]] (PtrMap.assign [] [] none)

/-- The parent of a position: the null pointer for the root, otherwise the position
without its last step. -/
def parentOf (p : Path) : Option Path :=
  match p with
  | [] => none
  | d :: rest => some (d :: rest).dropLast

/-- Total number of nodes below the queued positions. -/
def pathsWeight (root : TreeNode) : List Path → Nat
  | [] => 0
  | p :: q => (subtreeAt root p).size + pathsWeight root q

/-! ## Proofs: reconstruction from preorder and inorder -/

theorem size_eq_length_preorderSeq (t : TreeNode) : (preorderSeq t).length = t.size := by
  induction t with
  | nil => rfl
  | node v l r ihl ihr => simp [preorderSeq, TreeNode.size, ihl, ihr]; omega

theorem size_eq_length_inorderSeq (t : TreeNode) : (inorderSeq t).length = t.size := by
  induction t with
  | nil => rfl
  | node v l r ihl ihr => simp [inorderSeq, TreeNode.size, ihl, ihr]; omega

theorem inorder_eq_append (t : TreeNode) (res : List Int) :
    inorder t res = res ++ inorderSeq t := by
  induction t generalizing res with
  | nil => simp [inorder, inorderSeq]
  | node v l r ihl ihr => simp [inorder, inorderSeq, ihl, ihr]

theorem lookup_filter_ne (m : InMap) (k k2 : Int) (h : k2 ≠ k) :
    (m.filter (fun e => e.1 != k)).lookup k2 = m.lookup k2 := by
  induction m with
  | nil => rfl
  | cons e m ih =>
    obtain ⟨a, b⟩ := e
    by_cases hak : a = k
    · subst hak
      have h1 : (k2 == a) = false := by simpa using h
      simp [List.filter, List.lookup, h1, ih]
    · have h1 : (a != k) = true := by simpa using hak
      simp only [List.filter, h1, List.lookup]
      rw [ih]

theorem lookup_assign (m : InMap) (k v k2 : Int) :
    (m.assign k v).lookup k2 = if k2 = k then some v else m.lookup k2 := by
  unfold InMap.assign
  by_cases h : k2 = k
  · subst h; simp [List.lookup]
  · have h1 : (k2 == k) = false := by simpa using h
    simp only [List.lookup, h1, if_neg h]
    exact lookup_filter_ne m k k2 h

theorem lookup_fillInMap_of_not_mem (xs : List Int) (i : Nat) (m : InMap) (k : Int)
    (h : k ∉ xs) : (fillInMap xs i m).lookup k = m.lookup k := by
  induction xs generalizing i m with
  | nil => rfl
  | cons x xs ih =>
    simp only [List.mem_cons, not_or] at h
    simp only [fillInMap]
    rw [ih _ _ h.2, lookup_assign, if_neg h.1]

theorem lookup_fillInMap (xs : List Int) (i : Nat) (m : InMap) (k : Int) (j : Nat)
    (hnd : xs.Nodup) (hj : xs[j]? = some k) :
    (fillInMap xs i m).lookup k = some ((i : Int) + j) := by
  induction xs generalizing i m j with
  | nil => simp at hj
  | cons x xs ih =>
    rw [List.nodup_cons] at hnd
    simp only [fillInMap]
    cases j with
    | zero =>
      simp only [List.getElem?_cons_zero, Option.some.injEq] at hj
      subst hj
      rw [lookup_fillInMap_of_not_mem _ _ _ _ hnd.1, lookup_assign]
      simp
    | succ j =>
      simp only [List.getElem?_cons_succ] at hj
      rw [ih _ _ _ hnd.2 hj]
      congr 1
      push_cast
      omega

theorem index_of_lookup (m : InMap) (k v : Int) (h : m.lookup k = some v) :
    m.index k = (v, m) := by
  simp [InMap.index, h]

/-- The helper rebuilds a subtree from the windows of the two sequences that hold
its traversals, given a map that sends every inorder value to its position. -/
theorem buildTreeHelper_window (t : TreeNode) (fuel : Nat) (hf : t.size < fuel)
    (pre ino : List Int) (p1 p2 i1 i2 : List Int) (m : InMap)
    (hpre : pre = p1 ++ preorderSeq t ++ p2) (hino : ino = i1 ++ inorderSeq t ++ i2)
    (hm : ∀ (j : Nat) (k : Int), ino[j]? = some k → m.lookup k = some (j : Int)) :
    buildTreeHelper fuel pre (p1.length : Int) ((p1.length : Int) + t.size - 1)
      ino (i1.length : Int) ((i1.length : Int) + t.size - 1) m = .ok (t, m) := by
  induction t generalizing fuel p1 p2 i1 i2 with
  | nil =>
    cases fuel with
    | zero => simp [TreeNode.size] at hf
    | succ fuel => simp [buildTreeHelper, TreeNode.size]
  | node v l r ihl ihr =>
    cases fuel with
    | zero => simp at hf
    | succ fuel =>
      simp only [TreeNode.size] at hf
      have hroot : pre[((p1.length : Int)).toNat]? = some v := by
        subst hpre
        rw [Int.toNat_ofNat, List.append_assoc, List.getElem?_append_right (le_refl _)]
        simp [preorderSeq]
      have hpos : ino[i1.length + l.size]? = some v := by
        subst hino
        rw [List.append_assoc, List.getElem?_append_right (by omega)]
        simp only [inorderSeq, List.append_assoc]
        rw [List.getElem?_append_right (by simp [size_eq_length_inorderSeq])]
        simp [size_eq_length_inorderSeq]
      have hidx := index_of_lookup m v _ (hm _ _ hpos)
      have hcond : ¬ (((p1.length : Int)) > (p1.length : Int) + ((TreeNode.node v l r).size : Int) - 1
          ∨ ((i1.length : Int)) > (i1.length : Int) + ((TreeNode.node v l r).size : Int) - 1) := by
        simp only [TreeNode.size]; push_cast; omega
      have hneg : ¬ ((p1.length : Int) < 0) := by omega
      rw [buildTreeHelper, if_neg hcond, if_neg hneg]
      simp only [hroot, hidx]
      have hl : buildTreeHelper fuel pre ((p1.length : Int) + 1)
          ((p1.length : Int) + (((i1.length + l.size : Nat) : Int) - (i1.length : Int)))
          ino (i1.length : Int) (((i1.length + l.size : Nat) : Int) - 1) m = .ok (l, m) := by
        have h := ihl fuel (by omega) (p1 ++ [v]) (preorderSeq r ++ p2) i1
          (v :: inorderSeq r ++ i2) (by subst hpre; simp [preorderSeq])
          (by subst hino; simp [inorderSeq])
        have e1 : ((p1 ++ [v]).length : Int) = (p1.length : Int) + 1 := by simp
        have e2 : ((p1 ++ [v]).length : Int) + (l.size : Int) - 1
            = (p1.length : Int) + (((i1.length + l.size : Nat) : Int) - (i1.length : Int)) := by
          simp; omega
        have e3 : (i1.length : Int) + (l.size : Int) - 1
            = ((i1.length + l.size : Nat) : Int) - 1 := by
          push_cast; omega
        rw [e2, e1, e3] at h
        exact h
      have hr : buildTreeHelper fuel pre
          ((p1.length : Int) + (((i1.length + l.size : Nat) : Int) - (i1.length : Int)) + 1)
          ((p1.length : Int) + ((TreeNode.node v l r).size : Int) - 1)
          ino (((i1.length + l.size : Nat) : Int) + 1)
          ((i1.length : Int) + ((TreeNode.node v l r).size : Int) - 1) m = .ok (r, m) := by
        have h := ihr fuel (by omega) (p1 ++ [v] ++ preorderSeq l) p2 (i1 ++ inorderSeq l ++ [v])
          i2 (by subst hpre; simp [preorderSeq])
          (by subst hino; simp [inorderSeq])
        have e4 : ((p1 ++ [v] ++ preorderSeq l).length : Int)
            = (p1.length : Int) + (((i1.length + l.size : Nat) : Int) - (i1.length : Int)) + 1 := by
          simp [size_eq_length_preorderSeq]; omega
        have e5 : ((p1 ++ [v] ++ preorderSeq l).length : Int) + (r.size : Int) - 1
            = (p1.length : Int) + ((TreeNode.node v l r).size : Int) - 1 := by
          simp [size_eq_length_preorderSeq, TreeNode.size]; omega
        have e6 : ((i1 ++ inorderSeq l ++ [v]).length : Int)
            = ((i1.length + l.size : Nat) : Int) + 1 := by
          simp [size_eq_length_inorderSeq]; omega
        have e7 : ((i1 ++ inorderSeq l ++ [v]).length : Int) + (r.size : Int) - 1
            = (i1.length : Int) + ((TreeNode.node v l r).size : Int) - 1 := by
          simp [size_eq_length_inorderSeq, TreeNode.size]; omega
        rw [e5, e7, e4, e6] at h
        exact h
      rw [hl]
      simp only
      rw [hr]

/-- C1: for a tree with pairwise distinct values, `buildTree` applied to its preorder
and inorder sequences returns (given a recursion budget above the node count) exactly
that tree, so the traversals of the result are the two inputs. -/
theorem buildTree_reconstructs (t : TreeNode) (hnd : (inorderSeq t).Nodup)
    (fuel : Nat) (hf : t.size < fuel) :
    buildTree fuel (preorderSeq t) (inorder t []) = .ok t
      ∧ ∀ t2, buildTree fuel (preorderSeq t) (inorder t []) = .ok t2 →
          preorderSeq t2 = preorderSeq t ∧ inorder t2 [] = inorder t [] := by
  have hin : inorder t [] = inorderSeq t := by simp [inorder_eq_append]
  have hmain : buildTree fuel (preorderSeq t) (inorder t []) = .ok t := by
    rw [hin]
    have h := buildTreeHelper_window t fuel hf (preorderSeq t) (inorderSeq t) [] [] [] []
      (fillInMap (inorderSeq t) 0 []) (by simp) (by simp)
      (fun j k hj => by
        have := lookup_fillInMap (inorderSeq t) 0 [] k j hnd hj
        simpa using this)
    have e1 : (((preorderSeq t).length : Nat) : Int) - 1 = (([] : List Int).length : Int) + t.size - 1 := by
      simp [size_eq_length_preorderSeq]
    have e2 : (((inorderSeq t).length : Nat) : Int) - 1 = (([] : List Int).length : Int) + t.size - 1 := by
      simp [size_eq_length_inorderSeq]
    unfold buildTree
    rw [e1, e2]
    have e0 : (0 : Int) = (([] : List Int).length : Int) := by simp
    rw [e0, h]
  refine ⟨hmain, ?_⟩
  intro t2 h2
  rw [hmain] at h2
  cases h2
  exact ⟨rfl, rfl⟩

/-- Witness for C1 on the five-node tree with preorder 3 9 20 15 7. -/
theorem buildTree_reconstructs_witness :
    buildTree 6 (preorderSeq (.node 3 (.node 9 .nil .nil)
        (.node 20 (.node 15 .nil .nil) (.node 7 .nil .nil))))
      (inorder (.node 3 (.node 9 .nil .nil)
        (.node 20 (.node 15 .nil .nil) (.node 7 .nil .nil))) [])
      = .ok (.node 3 (.node 9 .nil .nil) (.node 20 (.node 15 .nil .nil) (.node 7 .nil .nil))) :=
  (buildTree_reconstructs (.node 3 (.node 9 .nil .nil)
    (.node 20 (.node 15 .nil .nil) (.node 7 .nil .nil))) (by decide) 6 (by decide)).1

/-- C5 (as stated, refuted): `buildTree` returns a tree for sequences of different lengths
(preorder 1 against inorder 1 2), and for a preorder value missing from the inorder
sequence (preorder 5 against inorder 7). -/
theorem buildTree_accepts_invalid_input :
    ¬ (∀ (fuel : Nat) (pre ino : List Int), pre.length ≠ ino.length →
        ∀ t, buildTree fuel pre ino ≠ .ok t)
      ∧ ¬ (∀ (fuel : Nat) (pre ino : List Int), (∃ v ∈ pre, v ∉ ino) →
        ∀ t, buildTree fuel pre ino ≠ .ok t) := by
  constructor
  · intro h
    exact h 2 [1] [1, 2] (by decide) (.node 1 .nil .nil) (by decide)
  · intro h
    exact h 2 [5] [7] ⟨5, by decide, by decide⟩ (.node 5 .nil .nil) (by decide)

/-- C5 (amended): `buildTree` validates nothing.  When either sequence is empty it returns
the absent tree whatever the other sequence is, and for a one-element preorder whose
value is missing from a non-empty inorder sequence it returns the single node. -/
theorem buildTree_unvalidated (fuel : Nat) (pre ino : List Int) (v : Int) :
    (pre = [] ∨ ino = [] → buildTree (fuel + 1) pre ino = .ok .nil)
      ∧ (ino ≠ [] → v ∉ ino → buildTree (fuel + 2) [v] ino = .ok (.node v .nil .nil)) := by
  constructor
  · rintro (h | h)
    · subst h; simp [buildTree, buildTreeHelper]
    · subst h; simp [buildTree, buildTreeHelper]
  · intro hne hv
    have hlook : (fillInMap ino 0 []).lookup v = none := by
      rw [lookup_fillInMap_of_not_mem _ _ _ _ hv]; rfl
    have hlen : 0 < ino.length := List.length_pos.mpr hne
    have hidx : (fillInMap ino 0 []).index v = (0, (v, 0) :: fillInMap ino 0 []) := by
      simp [InMap.index, hlook]
    have hc : ¬ ((0 : Int) > ((([v] : List Int).length : Nat) : Int) - 1
        ∨ (0 : Int) > ((ino.length : Nat) : Int) - 1) := by
      simp only [List.length_singleton]; omega
    unfold buildTree
    rw [buildTreeHelper, if_neg hc, if_neg (by decide)]
    simp [hidx, buildTreeHelper]

/-- Witness for the amended C5: an empty preorder against `[1, 2]`, and `[5]` against `[7]`. -/
theorem buildTree_unvalidated_witness :
    buildTree 1 [] [1, 2] = .ok .nil ∧ buildTree 2 [5] [7] = .ok (.node 5 .nil .nil) :=
  ⟨(buildTree_unvalidated 0 [] [1, 2] 5).1 (Or.inl rfl),
   (buildTree_unvalidated 0 [] [7] 5).2 (by decide) (by decide)⟩

/-! ## Proofs: BST deletion -/

theorem inorderSeq_attachRight (a b : TreeNode) :
    inorderSeq (attachRight a b) = inorderSeq a ++ inorderSeq b := by
  induction a with
  | nil => simp [attachRight, inorderSeq]
  | node v l r _ ihr => simp [attachRight, inorderSeq, ihr]

theorem size_attachRight (a b : TreeNode) : (attachRight a b).size = a.size + b.size := by
  induction a with
  | nil => simp [attachRight, TreeNode.size]
  | node v l r _ ihr => simp [attachRight, TreeNode.size, ihr]; omega

theorem isBST_attachRight (a b : TreeNode) (ha : isBST a) (hb : isBST b)
    (hab : ∀ x ∈ inorderSeq a, ∀ y ∈ inorderSeq b, x < y) : isBST (attachRight a b) := by
  induction a with
  | nil => simpa [attachRight] using hb
  | node v l r _ ihr =>
    obtain ⟨hl, hr, hbl, hbr⟩ := ha
    refine ⟨hl, ?_, hbl, ?_⟩
    · intro x hx
      rw [inorderSeq_attachRight, List.mem_append] at hx
      rcases hx with hx | hx
      · exact hr x hx
      · exact hab v (by simp [inorderSeq]) x hx
    · exact ihr hbr (fun x hx y hy => hab x (by simp [inorderSeq, hx]) y hy)

theorem mem_deleteNode (t : TreeNode) (key x : Int) (h : x ∈ inorderSeq (deleteNode t key)) :
    x ∈ inorderSeq t := by
  induction t with
  | nil => simpa [deleteNode] using h
  | node v l r ihl ihr =>
    simp only [deleteNode] at h
    split_ifs at h with h1 h2
    · cases l with
      | nil => simp [inorderSeq, h]
      | node lv ll lr =>
        simp only [inorderSeq_attachRight, List.mem_append] at h
        simp only [inorderSeq, List.mem_append, List.mem_cons]
        rcases h with h | h
        · exact Or.inl (by simpa [inorderSeq] using h)
        · exact Or.inr (Or.inr h)
    · simp only [inorderSeq, List.mem_append, List.mem_cons] at h ⊢
      rcases h with h | h | h
      · exact Or.inl h
      · exact Or.inr (Or.inl h)
      · exact Or.inr (Or.inr (ihr h))
    · simp only [inorderSeq, List.mem_append, List.mem_cons] at h ⊢
      rcases h with h | h | h
      · exact Or.inl (ihl h)
      · exact Or.inr (Or.inl h)
      · exact Or.inr (Or.inr h)

theorem isBST_deleteNode (t : TreeNode) (key : Int) (h : isBST t) : isBST (deleteNode t key) := by
  induction t with
  | nil => simpa [deleteNode] using h
  | node v l r ihl ihr =>
    obtain ⟨hl, hr, hbl, hbr⟩ := h
    simp only [deleteNode]
    split_ifs with h1 h2
    · cases l with
      | nil => exact hbr
      | node lv ll lr =>
        exact isBST_attachRight _ _ hbl hbr (fun x hx y hy => lt_trans (hl x hx) (hr y hy))
    · exact ⟨hl, fun x hx => hr x (mem_deleteNode _ _ _ hx), hbl, ihr hbr⟩
    · exact ⟨fun x hx => hl x (mem_deleteNode _ _ _ hx), hr, ihl hbl, hbr⟩

theorem sorted_of_isBST (t : TreeNode) (h : isBST t) : (inorderSeq t).Sorted (· < ·) := by
  induction t with
  | nil => simp [inorderSeq]
  | node v l r ihl ihr =>
    obtain ⟨hl, hr, hbl, hbr⟩ := h
    simp only [inorderSeq, List.Sorted]
    rw [List.pairwise_append]
    refine ⟨ihl hbl, List.pairwise_cons.mpr ⟨hr, ihr hbr⟩, ?_⟩
    intro a ha b hb
    rcases List.mem_cons.mp hb with hb | hb
    · subst hb; exact hl a ha
    · exact lt_trans (hl a ha) (hr b hb)

/-- C2: on a strict BST, the result of `deleteNode` holds no node with the key; it has
exactly one node less when the key occurs, and is the same tree when it does not. -/
theorem deleteNode_removes_key (t : TreeNode) (key : Int) (h : isBST t) :
    key ∉ inorderSeq (deleteNode t key)
      ∧ (key ∈ inorderSeq t → (deleteNode t key).size + 1 = t.size)
      ∧ (key ∉ inorderSeq t →
          deleteNode t key = t ∧ (deleteNode t key).size = t.size) := by
  induction t with
  | nil => simp [deleteNode, inorderSeq]
  | node v l r ihl ihr =>
    obtain ⟨hl, hr, hbl, hbr⟩ := h
    obtain ⟨l1, l2, l3⟩ := ihl hbl
    obtain ⟨r1, r2, r3⟩ := ihr hbr
    simp only [deleteNode]
    split_ifs with h1 h2
    · subst h1
      have hnl : v ∉ inorderSeq l := fun hx => lt_irrefl _ (hl v hx)
      have hnr : v ∉ inorderSeq r := fun hx => lt_irrefl _ (hr v hx)
      cases l with
      | nil =>
        refine ⟨hnr, fun _ => by simp [TreeNode.size]; omega, fun hx => ?_⟩
        exact absurd (by simp [inorderSeq]) hx
      | node lv ll lr =>
        refine ⟨?_, fun _ => ?_, fun hx => ?_⟩
        · rw [inorderSeq_attachRight, List.mem_append]
          rintro (hx | hx)
          · exact hnl hx
          · exact hnr hx
        · rw [size_attachRight]; simp only [TreeNode.size]; omega
        · exact absurd (by simp [inorderSeq]) hx
    · have hnl : key ∉ inorderSeq l := fun hx => lt_asymm (hl key hx) h2
      refine ⟨?_, fun hx => ?_, fun hx => ?_⟩
      · simp only [inorderSeq, List.mem_append, List.mem_cons, not_or]
        exact ⟨hnl, fun e => h1 e.symm, r1⟩
      · simp only [inorderSeq, List.mem_append, List.mem_cons] at hx
        have hkr : key ∈ inorderSeq r := by
          rcases hx with hx | hx | hx
          · exact absurd hx hnl
          · exact absurd hx.symm h1
          · exact hx
        have := r2 hkr
        simp only [TreeNode.size]; omega
      · simp only [inorderSeq, List.mem_append, List.mem_cons, not_or] at hx
        have := r3 hx.2.2
        rw [this.1]
        exact ⟨rfl, rfl⟩
    · have hlt : key < v := lt_of_le_of_ne (not_lt.mp h2) (fun e => h1 e.symm)
      have hnr : key ∉ inorderSeq r := fun hx => lt_asymm (hr key hx) hlt
      refine ⟨?_, fun hx => ?_, fun hx => ?_⟩
      · simp only [inorderSeq, List.mem_append, List.mem_cons, not_or]
        exact ⟨l1, fun e => h1 e.symm, hnr⟩
      · simp only [inorderSeq, List.mem_append, List.mem_cons] at hx
        have hkl : key ∈ inorderSeq l := by
          rcases hx with hx | hx | hx
          · exact hx
          · exact absurd hx.symm h1
          · exact absurd hx hnr
        have := l2 hkl
        simp only [TreeNode.size]; omega
      · simp only [inorderSeq, List.mem_append, List.mem_cons, not_or] at hx
        have := l3 hx.1
        rw [this.1]
        exact ⟨rfl, rfl⟩

/-- Witness for C2: deleting the root 5 of the BST with inorder 2 3 4 5 7 leaves four nodes,
none of them holding 5. -/
theorem deleteNode_removes_key_witness :
    5 ∉ inorderSeq (deleteNode (.node 5 (.node 3 (.node 2 .nil .nil) (.node 4 .nil .nil))
        (.node 7 .nil .nil)) 5)
      ∧ (deleteNode (.node 5 (.node 3 (.node 2 .nil .nil) (.node 4 .nil .nil))
          (.node 7 .nil .nil)) 5).size + 1
        = (TreeNode.node 5 (.node 3 (.node 2 .nil .nil) (.node 4 .nil .nil))
          (.node 7 .nil .nil)).size :=
  ⟨(deleteNode_removes_key (.node 5 (.node 3 (.node 2 .nil .nil) (.node 4 .nil .nil))
      (.node 7 .nil .nil)) 5 (by decide)).1,
   (deleteNode_removes_key (.node 5 (.node 3 (.node 2 .nil .nil) (.node 4 .nil .nil))
      (.node 7 .nil .nil)) 5 (by decide)).2.1 (by decide)⟩

/-- C3: `deleteNode` preserves the strict BST invariant, so the inorder sequence of the
result is strictly ascending. -/
theorem deleteNode_preserves_bst (t : TreeNode) (key : Int) (h : isBST t) :
    isBST (deleteNode t key) ∧ (inorder (deleteNode t key) []).Sorted (· < ·) := by
  have hb := isBST_deleteNode t key h
  refine ⟨hb, ?_⟩
  rw [inorder_eq_append, List.nil_append]
  exact sorted_of_isBST _ hb

/-- Witness for C3: deleting the root of the BST with inorder 2 3 4 5 7. -/
theorem deleteNode_preserves_bst_witness :
    isBST (deleteNode (.node 5 (.node 3 (.node 2 .nil .nil) (.node 4 .nil .nil))
        (.node 7 .nil .nil)) 5)
      ∧ (inorder (deleteNode (.node 5 (.node 3 (.node 2 .nil .nil) (.node 4 .nil .nil))
        (.node 7 .nil .nil)) 5) []).Sorted (· < ·) :=
  deleteNode_preserves_bst (.node 5 (.node 3 (.node 2 .nil .nil) (.node 4 .nil .nil))
    (.node 7 .nil .nil)) 5 (by decide)

theorem attachRight_spine (a b : TreeNode) (ha : a ≠ .nil) :
    (∃ pv pl, subtreeAt a (List.replicate (rightSteps a) Dir.R) = .node pv pl .nil
        ∧ subtreeAt (attachRight a b) (List.replicate (rightSteps a) Dir.R) = .node pv pl b
        ∧ (inorderSeq a).getLast? = some pv)
      ∧ ∀ j, j < rightSteps a →
          rootVal (subtreeAt (attachRight a b) (List.replicate j Dir.R))
            = rootVal (subtreeAt a (List.replicate j Dir.R))
          ∧ leftOf (subtreeAt (attachRight a b) (List.replicate j Dir.R))
            = leftOf (subtreeAt a (List.replicate j Dir.R)) := by
  induction a with
  | nil => exact absurd rfl ha
  | node v l r _ ihr =>
    cases r with
    | nil =>
      refine ⟨⟨v, l, ?_, ?_, ?_⟩, ?_⟩
      · simp [rightSteps, subtreeAt]
      · simp [rightSteps, subtreeAt, attachRight]
      · simp [inorderSeq]
      · intro j hj
        simp [rightSteps] at hj
    | node rv rl rr =>
      obtain ⟨⟨pv, pl, h1, h2, h3⟩, h4⟩ := ihr (by simp)
      refine ⟨⟨pv, pl, ?_, ?_, ?_⟩, ?_⟩
      · simpa [rightSteps, List.replicate_succ, subtreeAt] using h1
      · simpa [rightSteps, List.replicate_succ, subtreeAt, attachRight] using h2
      · have e : inorderSeq (TreeNode.node v l (TreeNode.node rv rl rr))
            = (inorderSeq l ++ [v]) ++ inorderSeq (TreeNode.node rv rl rr) := by
          simp [inorderSeq]
        rw [e, List.getLast?_append, h3]
        rfl
      · intro j hj
        cases j with
        | zero => simp [subtreeAt, attachRight, rootVal, leftOf]
        | succ j =>
          have := h4 j (by simp [rightSteps] at hj; omega)
          simpa [List.replicate_succ, subtreeAt, attachRight] using this

/-- C4 (as stated, refuted): deleting the root 5 of the BST with left child 3, whose right
child 4 is the in-order predecessor of 5, returns a tree rooted at 3 and not at 4. -/
theorem deleteNode_root_is_not_predecessor :
    ¬ (∀ (key : Int) (l r : TreeNode), isBST (.node key l r) → l ≠ .nil →
        rootVal (deleteNode (.node key l r) key)
          = rootVal (subtreeAt l (List.replicate (rightSteps l) Dir.R))) := by
  intro h
  have := h 5 (.node 3 .nil (.node 4 .nil .nil)) (.node 7 .nil .nil) (by decide) (by decide)
  revert this
  decide

/-- C4 (amended): when the root holds the key and has a left child, the returned tree is
rooted at that left child, which keeps its value and its own left subtree; along the right
links from it every node keeps its value and left subtree, and the last of them, the
in-order predecessor of the removed node, receives the removed node's right subtree as
its right child.  When the root holds the key and has no left child the result is the
right child. -/
theorem deleteNode_splices_at_predecessor (key lv : Int) (ll lr r : TreeNode) :
    rootVal (deleteNode (.node key (.node lv ll lr) r) key) = some lv
      ∧ leftOf (deleteNode (.node key (.node lv ll lr) r) key) = ll
      ∧ (∃ pv pl,
          subtreeAt (.node lv ll lr) (List.replicate (rightSteps (.node lv ll lr)) Dir.R)
            = .node pv pl .nil
          ∧ subtreeAt (deleteNode (.node key (.node lv ll lr) r) key)
              (List.replicate (rightSteps (.node lv ll lr)) Dir.R) = .node pv pl r
          ∧ (inorderSeq (.node lv ll lr)).getLast? = some pv)
      ∧ (∀ j, j < rightSteps (.node lv ll lr) →
          rootVal (subtreeAt (deleteNode (.node key (.node lv ll lr) r) key)
              (List.replicate j Dir.R))
            = rootVal (subtreeAt (.node lv ll lr) (List.replicate j Dir.R))
          ∧ leftOf (subtreeAt (deleteNode (.node key (.node lv ll lr) r) key)
              (List.replicate j Dir.R))
            = leftOf (subtreeAt (.node lv ll lr) (List.replicate j Dir.R)))
      ∧ deleteNode (.node key .nil r) key = r := by
  have hd : deleteNode (.node key (.node lv ll lr) r) key = attachRight (.node lv ll lr) r := by
    simp [deleteNode]
  obtain ⟨h1, h2⟩ := attachRight_spine (.node lv ll lr) r (by simp)
  rw [hd]
  refine ⟨by simp [attachRight, rootVal], by simp [attachRight, leftOf], h1, h2, ?_⟩
  simp [deleteNode]

/-- Witness for the amended C4: deleting the root 5 whose left child 3 has right child 4. -/
theorem deleteNode_splices_at_predecessor_witness :
    rootVal (deleteNode (.node 5 (.node 3 .nil (.node 4 .nil .nil)) (.node 7 .nil .nil)) 5)
        = some 3
      ∧ deleteNode (.node 5 .nil (.node 7 .nil .nil)) 5 = .node 7 .nil .nil :=
  ⟨(deleteNode_splices_at_predecessor 5 3 .nil (.node 4 .nil .nil) (.node 7 .nil .nil)).1,
   (deleteNode_splices_at_predecessor 5 3 .nil (.node 4 .nil .nil)
      (.node 7 .nil .nil)).2.2.2.2⟩

/-! ## Proofs: serialization -/

theorem digitVal_digitChar (d : Nat) (h : d < 10) : digitVal (digitChar d) = d := by
  interval_cases d <;> rfl

theorem isDigit_digitChar (d : Nat) (h : d < 10) : (digitChar d).isDigit = true := by
  interval_cases d <;> rfl

theorem digitChar_ne (d : Nat) (h : d < 10) :
    digitChar d ≠ 'n' ∧ digitChar d ≠ '-' ∧ digitChar d ≠ '#' := by
  interval_cases d <;> decide

theorem decimalRev_ne_nil (fuel n : Nat) : decimalRev (fuel + 1) n ≠ [] := by
  simp only [decimalRev]; split_ifs <;> simp

theorem decimalRev_digits (fuel n : Nat) : ∀ c ∈ decimalRev fuel n, ∃ d, d < 10 ∧ c = digitChar d := by
  induction fuel generalizing n with
  | zero => simp [decimalRev]
  | succ fuel ih =>
    intro c hc
    simp only [decimalRev] at hc
    split_ifs at hc with h
    · simp only [List.mem_singleton] at hc
      exact ⟨n, h, hc⟩
    · rcases List.mem_cons.mp hc with hc | hc
      · exact ⟨n % 10, Nat.mod_lt _ (by decide), hc⟩
      · exact ih _ c hc

theorem decimalRev_value (fuel n : Nat) (h : n < fuel) :
    (decimalRev fuel n).foldr (fun c acc => acc * 10 + digitVal c) 0 = n := by
  induction fuel generalizing n with
  | zero => omega
  | succ fuel ih =>
    simp only [decimalRev]
    split_ifs with h1
    · simp [digitVal_digitChar n h1]
    · simp only [List.foldr_cons]
      rw [ih (n / 10) (by omega), digitVal_digitChar _ (Nat.mod_lt _ (by decide))]
      omega

theorem readNat_digits (ds rest : List Char) (acc : Nat)
    (hds : ∀ c ∈ ds, c.isDigit = true) (hrest : ∀ c, rest.head? = some c → c.isDigit = false) :
    readNat (ds ++ rest) acc = (ds.foldl (fun a c => a * 10 + digitVal c) acc, rest) := by
  induction ds generalizing acc with
  | nil =>
    cases rest with
    | nil => rfl
    | cons c cs =>
      have := hrest c rfl
      simp [readNat, this]
  | cons d ds ih =>
    have hd := hds d (by simp)
    simp only [List.cons_append, readNat, hd, if_true, List.foldl_cons]
    exact ih _ (fun c hc => hds c (by simp [hc]))

theorem to_string_data (v : Int) :
    ∃ ds : List Char, ds ≠ [] ∧ (∀ c ∈ ds, ∃ d, d < 10 ∧ c = digitChar d)
      ∧ ds.foldl (fun a c => a * 10 + digitVal c) 0 = v.natAbs
      ∧ (to_string v).data = if v < 0 then '-' :: ds else ds := by
  refine ⟨(decimalRev (v.natAbs + 1) v.natAbs).reverse, ?_, ?_, ?_, ?_⟩
  · simpa using decimalRev_ne_nil _ _
  · intro c hc
    exact decimalRev_digits _ _ c (List.mem_reverse.mp hc)
  · rw [List.foldl_reverse]
    exact decimalRev_value _ _ (Nat.lt_succ_self _)
  · unfold to_string
    split_ifs <;> rfl

theorem serialize_data_head (t : TreeNode) : ∃ tl, (serialize t).data = '#' :: tl := by
  cases t with
  | nil => exact ⟨['n', 'u', 'l', 'l'], rfl⟩
  | node v l r =>
    refine ⟨(to_string v).data ++ (serialize l).data ++ (serialize r).data, ?_⟩
    simp [serialize, String.data_append]

theorem parseTree_serialize (t : TreeNode) (fuel : Nat) (rest : List Char)
    (hf : t.size < fuel) (hrest : ∀ c, rest.head? = some c → c = '#') :
    parseTree fuel ((serialize t).data ++ rest) = some (t, rest) := by
  induction t generalizing fuel rest with
  | nil =>
    cases fuel with
    | zero => omega
    | succ fuel =>
      have e : (serialize .nil).data ++ rest = '#' :: ('n' :: 'u' :: 'l' :: 'l' :: rest) := rfl
      rw [e]
      simp [parseTree]
  | node v l r ihl ihr =>
    cases fuel with
    | zero => omega
    | succ fuel =>
      simp only [TreeNode.size] at hf
      obtain ⟨ds, hne, hdig, hval, hdata⟩ := to_string_data v
      obtain ⟨rtl, hrdata⟩ := serialize_data_head r
      obtain ⟨ltl, hldata⟩ := serialize_data_head l
      have hr := ihr fuel rest (by omega) hrest
      have hl := ihl fuel ((serialize r).data ++ rest) (by omega)
        (by intro c hc; rw [hrdata] at hc; simpa using hc.symm)
      obtain ⟨d0, dtl, hds⟩ := List.exists_cons_of_ne_nil hne
      obtain ⟨k0, hk0, hd0⟩ := hdig d0 (by simp [hds])
      have hd0ne := digitChar_ne k0 hk0
      rw [← hd0] at hd0ne
      have hread : readNat (ds ++ ((serialize l).data ++ ((serialize r).data ++ rest))) 0
          = (v.natAbs, (serialize l).data ++ ((serialize r).data ++ rest)) := by
        rw [readNat_digits ds _ 0
          (fun c hc => by obtain ⟨d, hd, e⟩ := hdig c hc; rw [e]; exact isDigit_digitChar d hd)
          (by intro c hc; rw [hldata] at hc; simp at hc; rw [← hc]; rfl), hval]
      have e : (serialize (.node v l r)).data ++ rest
          = '#' :: ((to_string v).data ++ ((serialize l).data ++ ((serialize r).data ++ rest))) := by
        simp [serialize, String.data_append]
      rw [e, hdata]
      by_cases hv : v < 0
      · simp only [hv, if_true]
        have hvabs : -((v.natAbs : Nat) : Int) = v := by omega
        simp [parseTree, hread, hl, hr]
        rw [abs_of_neg hv, neg_neg]
      · simp only [hv, if_false]
        have hvabs : ((v.natAbs : Nat) : Int) = v := by omega
        subst hds
        rw [List.cons_append] at hread
        simp [parseTree, hread, hl, hr, hvabs, hd0ne.2.1, hd0ne.1]

theorem size_le_length_serialize (t : TreeNode) : t.size < (serialize t).length := by
  induction t with
  | nil => decide
  | node v l r ihl ihr =>
    simp [serialize, String.data_append, TreeNode.size]
    omega

theorem deserialize_serialize (t : TreeNode) : deserialize (serialize t) = some t := by
  unfold deserialize
  have h := parseTree_serialize t ((serialize t).length + 1) [] (by
    have := size_le_length_serialize t; omega) (by simp)
  rw [List.append_nil] at h
  rw [h]

/-- C6: `serialize` is reversible: a decoder recovers every tree (the absent tree
included) from its serialization, and trees with equal serializations are equal. -/
theorem serialize_reversible :
    (∃ decode : String → Option TreeNode, ∀ t, decode (serialize t) = some t)
      ∧ ∀ t1 t2, serialize t1 = serialize t2 → t1 = t2 := by
  refine ⟨⟨deserialize, deserialize_serialize⟩, ?_⟩
  intro t1 t2 h
  have h1 := deserialize_serialize t1
  rw [h, deserialize_serialize t2] at h1
  exact (Option.some.inj h1).symm

/-- Witness for C6 on the single node 1. -/
theorem serialize_reversible_witness :
    serialize (.node 1 .nil .nil) = serialize (.node 1 .nil .nil)
      ∧ TreeNode.node 1 .nil .nil = TreeNode.node 1 .nil .nil :=
  ⟨rfl, serialize_reversible.2 (.node 1 .nil .nil) (.node 1 .nil .nil) rfl⟩

/-! ## Proofs: lowest common ancestor -/

theorem not_append_singleton_isPrefix (cur p : Path) (d : Dir) (h : ¬ cur <+: p) :
    ¬ (cur ++ [d]) <+: p := fun hp =>
  h ((List.prefix_append cur [d]).trans hp)

theorem lca_none (t : TreeNode) (cur p q : Path) (hp : ¬ cur <+: p) (hq : ¬ cur <+: q) :
    lowestCommonAncestor t cur p q = none := by
  induction t generalizing cur with
  | nil => rfl
  | node v l r ihl ihr =>
    have h1 : cur ≠ p := fun e => hp (e ▸ List.prefix_refl _)
    have h2 : cur ≠ q := fun e => hq (e ▸ List.prefix_refl _)
    simp only [lowestCommonAncestor, h1, h2, or_self, if_false]
    rw [ihl _ (not_append_singleton_isPrefix _ _ _ hp) (not_append_singleton_isPrefix _ _ _ hq),
      ihr _ (not_append_singleton_isPrefix _ _ _ hp) (not_append_singleton_isPrefix _ _ _ hq)]
    simp

theorem append_singleton_not_isPrefix (cur : Path) (d e : Dir) (p : Path) (h : d ≠ e) :
    ¬ (cur ++ [d]) <+: (cur ++ e :: p) := by
  intro hp
  rw [List.prefix_append_right_inj] at hp
  obtain ⟨s, hs⟩ := hp
  simp at hs
  exact h hs.1

theorem lca_one_left (t : TreeNode) (cur p2 q : Path) (hp : subtreeAt t p2 ≠ .nil)
    (hq : ¬ cur <+: q) : lowestCommonAncestor t cur (cur ++ p2) q = some (cur ++ p2) := by
  induction t generalizing cur p2 with
  | nil => cases p2 <;> simp [subtreeAt] at hp
  | node v l r ihl ihr =>
    cases p2 with
    | nil => simp [lowestCommonAncestor]
    | cons d p3 =>
      have h1 : cur ≠ cur ++ d :: p3 := by
        intro e
        have := congrArg List.length e
        simp at this
      have h2 : cur ≠ q := fun e => hq (e ▸ List.prefix_refl _)
      have e1 : cur ++ d :: p3 = (cur ++ [d]) ++ p3 := by simp
      simp only [lowestCommonAncestor, h1, h2, or_self, if_false]
      cases d with
      | L =>
        have hl := ihl (cur ++ [Dir.L]) p3 (by simpa [subtreeAt] using hp)
          (not_append_singleton_isPrefix _ _ _ hq)
        have hr := lca_none r (cur ++ [Dir.R]) (cur ++ Dir.L :: p3) q
          (append_singleton_not_isPrefix _ _ _ _ (by decide))
          (not_append_singleton_isPrefix _ _ _ hq)
        rw [e1, hl, ← e1, hr]
        simp
      | R =>
        have hr := ihr (cur ++ [Dir.R]) p3 (by simpa [subtreeAt] using hp)
          (not_append_singleton_isPrefix _ _ _ hq)
        have hl := lca_none l (cur ++ [Dir.L]) (cur ++ Dir.R :: p3) q
          (append_singleton_not_isPrefix _ _ _ _ (by decide))
          (not_append_singleton_isPrefix _ _ _ hq)
        rw [e1, hr, ← e1, hl]
        simp

theorem lca_comm (t : TreeNode) (cur p q : Path) :
    lowestCommonAncestor t cur p q = lowestCommonAncestor t cur q p := by
  induction t generalizing cur with
  | nil => rfl
  | node v l r ihl ihr =>
    simp only [lowestCommonAncestor]
    rw [ihl, ihr]
    by_cases h : cur = p ∨ cur = q
    · rw [if_pos h, if_pos (Or.symm h)]
    · rw [if_neg h, if_neg (fun h2 => h (Or.symm h2))]

theorem lca_both (t : TreeNode) (cur p2 q2 : Path) (hp : subtreeAt t p2 ≠ .nil)
    (hq : subtreeAt t q2 ≠ .nil) :
    ∃ a, lowestCommonAncestor t cur (cur ++ p2) (cur ++ q2) = some (cur ++ a)
      ∧ a <+: p2 ∧ a <+: q2 ∧ ∀ c : Path, c <+: p2 → c <+: q2 → c <+: a := by
  induction t generalizing cur p2 q2 with
  | nil => cases p2 <;> simp [subtreeAt] at hp
  | node v l r ihl ihr =>
    cases p2 with
    | nil =>
      refine ⟨[], by simp [lowestCommonAncestor], List.nil_prefix, List.nil_prefix, ?_⟩
      intro c hc _
      exact hc
    | cons d p3 =>
      cases q2 with
      | nil =>
        refine ⟨[], by simp [lowestCommonAncestor], List.nil_prefix, List.nil_prefix, ?_⟩
        intro c _ hc
        exact hc
      | cons e q3 =>
        have h1 : cur ≠ cur ++ d :: p3 := by
          intro e
          have := congrArg List.length e
          simp at this
        have h2 : cur ≠ cur ++ e :: q3 := by
          intro e
          have := congrArg List.length e
          simp at this
        have e1 : cur ++ d :: p3 = (cur ++ [d]) ++ p3 := by simp
        have e2 : cur ++ e :: q3 = (cur ++ [e]) ++ q3 := by simp
        by_cases hde : d = e
        · subst hde
          have key : ∀ (s o : TreeNode) (dd od : Dir), dd ≠ od → subtreeAt s p3 ≠ .nil →
              subtreeAt s q3 ≠ .nil →
              (∀ (cur p2 q2 : Path), subtreeAt s p2 ≠ .nil → subtreeAt s q2 ≠ .nil →
                ∃ a, lowestCommonAncestor s cur (cur ++ p2) (cur ++ q2) = some (cur ++ a)
                  ∧ a <+: p2 ∧ a <+: q2 ∧ ∀ c : Path, c <+: p2 → c <+: q2 → c <+: a) →
              ∃ a, lowestCommonAncestor s (cur ++ [dd]) (cur ++ dd :: p3) (cur ++ dd :: q3)
                    = some (cur ++ a)
                ∧ lowestCommonAncestor o (cur ++ [od]) (cur ++ dd :: p3) (cur ++ dd :: q3) = none
                ∧ a <+: dd :: p3 ∧ a <+: dd :: q3
                ∧ ∀ c : Path, c <+: dd :: p3 → c <+: dd :: q3 → c <+: a := by
            intro s o dd od hne hsp hsq ih
            obtain ⟨a, ha, hap, haq, hmax⟩ := ih (cur ++ [dd]) p3 q3 hsp hsq
            refine ⟨dd :: a, ?_, ?_, ?_, ?_, ?_⟩
            · have e3 : cur ++ dd :: p3 = (cur ++ [dd]) ++ p3 := by simp
              have e4 : cur ++ dd :: q3 = (cur ++ [dd]) ++ q3 := by simp
              rw [e3, e4, ha]; simp
            · exact lca_none _ _ _ _ (append_singleton_not_isPrefix _ _ _ _ hne.symm)
                (append_singleton_not_isPrefix _ _ _ _ hne.symm)
            · exact (List.prefix_cons_inj dd).mpr hap
            · exact (List.prefix_cons_inj dd).mpr haq
            · intro c hcp hcq
              cases c with
              | nil => exact List.nil_prefix
              | cons c0 c1 =>
                have hc0 : c0 = dd := by
                  obtain ⟨s, hs⟩ := hcp
                  simp at hs
                  exact hs.1
                subst hc0
                rw [List.prefix_cons_inj] at hcp hcq ⊢
                exact hmax c1 hcp hcq
          simp only [lowestCommonAncestor, h1, h2, or_self, if_false]
          cases d with
          | L =>
            obtain ⟨a, ha, hn, r1, r2, r3⟩ := key l r Dir.L Dir.R (by decide)
              (by simpa [subtreeAt] using hp) (by simpa [subtreeAt] using hq) ihl
            exact ⟨a, by rw [ha, hn]; simp, r1, r2, r3⟩
          | R =>
            obtain ⟨a, ha, hn, r1, r2, r3⟩ := key r l Dir.R Dir.L (by decide)
              (by simpa [subtreeAt] using hp) (by simpa [subtreeAt] using hq) ihr
            exact ⟨a, by rw [ha, hn]; simp, r1, r2, r3⟩
        · refine ⟨[], ?_, List.nil_prefix, List.nil_prefix, ?_⟩
          · simp only [lowestCommonAncestor, h1, h2, or_self, if_false]
            cases d with
            | L =>
              have he : e = Dir.R := by
                cases e with
                | L => exact absurd rfl hde
                | R => rfl
              subst he
              have hl := lca_one_left l (cur ++ [Dir.L]) p3 (cur ++ Dir.R :: q3)
                (by simpa [subtreeAt] using hp)
                (append_singleton_not_isPrefix _ _ _ _ (by decide))
              have hr := lca_one_left r (cur ++ [Dir.R]) q3 (cur ++ Dir.L :: p3)
                (by simpa [subtreeAt] using hq)
                (append_singleton_not_isPrefix _ _ _ _ (by decide))
              rw [lca_comm] at hr
              rw [e1, hl, ← e1, e2, hr]
              simp
            | R =>
              have he : e = Dir.L := by
                cases e with
                | L => rfl
                | R => exact absurd rfl hde
              subst he
              have hr := lca_one_left r (cur ++ [Dir.R]) p3 (cur ++ Dir.L :: q3)
                (by simpa [subtreeAt] using hp)
                (append_singleton_not_isPrefix _ _ _ _ (by decide))
              have hl := lca_one_left l (cur ++ [Dir.L]) q3 (cur ++ Dir.R :: p3)
                (by simpa [subtreeAt] using hq)
                (append_singleton_not_isPrefix _ _ _ _ (by decide))
              rw [lca_comm] at hl
              rw [e1, hr, ← e1, e2, hl]
              simp
          · intro c hcp hcq
            cases c with
            | nil => exact List.nil_prefix
            | cons c0 c1 =>
              exfalso
              obtain ⟨s, hs⟩ := hcp
              obtain ⟨s2, hs2⟩ := hcq
              simp at hs hs2
              exact hde (hs.1.symm.trans hs2.1)

theorem subtreeAt_ne_nil_of_isPrefix (t : TreeNode) (a p : Path) (h : a <+: p)
    (hp : subtreeAt t p ≠ .nil) : subtreeAt t a ≠ .nil := by
  induction a generalizing t p with
  | nil =>
    intro e
    simp only [subtreeAt] at e
    subst e
    cases p <;> simp [subtreeAt] at hp
  | cons d a ih =>
    cases p with
    | nil => simp at h
    | cons d2 p2 =>
      have hd : d = d2 := by
        obtain ⟨s, hs⟩ := h
        simp at hs
        exact hs.1
      subst hd
      rw [List.prefix_cons_inj] at h
      cases t with
      | nil => simp [subtreeAt] at hp
      | node v l r =>
        cases d with
        | L => exact ih l p2 h (by simpa [subtreeAt] using hp)
        | R => exact ih r p2 h (by simpa [subtreeAt] using hp)

/-- C7: for two positions `p` and `q` that hold nodes of the tree, `lowestCommonAncestor`
returns a node of the tree that is an ancestor of both (a position is an ancestor of the
positions it is an initial part of, itself included) and at least as deep as every common
ancestor; when `p` is an ancestor of `q` it returns `p`. -/
theorem lowestCommonAncestor_deepest (root : TreeNode) (p q : Path)
    (hp : subtreeAt root p ≠ .nil) (hq : subtreeAt root q ≠ .nil) :
    ∃ a, lowestCommonAncestor root [] p q = some a
      ∧ subtreeAt root a ≠ .nil
      ∧ a <+: p ∧ a <+: q
      ∧ (∀ c : Path, c <+: p → c <+: q → c.length ≤ a.length)
      ∧ (p <+: q → a = p) := by
  obtain ⟨a, ha, hap, haq, hmax⟩ := lca_both root [] p q hp hq
  refine ⟨a, by simpa using ha, subtreeAt_ne_nil_of_isPrefix root a p hap hp, hap, haq, ?_, ?_⟩
  · intro c hcp hcq
    exact (hmax c hcp hcq).length_le
  · intro hpq
    have h1 := hmax p (List.prefix_refl p) hpq
    exact List.IsPrefix.eq_of_length hap (le_antisymm hap.length_le h1.length_le)

/-- Witness for C7: in the tree 3 (5 (6) (2)) (1), the nodes 6 and 2 meet at 5. -/
theorem lowestCommonAncestor_deepest_witness :
    ∃ a, lowestCommonAncestor (.node 3 (.node 5 (.node 6 .nil .nil) (.node 2 .nil .nil))
        (.node 1 .nil .nil)) [] [Dir.L, Dir.L] [Dir.L, Dir.R] = some a
      ∧ subtreeAt (.node 3 (.node 5 (.node 6 .nil .nil) (.node 2 .nil .nil))
        (.node 1 .nil .nil)) a ≠ .nil
      ∧ a <+: [Dir.L, Dir.L] ∧ a <+: [Dir.L, Dir.R]
      ∧ (∀ c : Path, c <+: [Dir.L, Dir.L] → c <+: [Dir.L, Dir.R] → c.length ≤ a.length)
      ∧ ([Dir.L, Dir.L] <+: [Dir.L, Dir.R] → a = [Dir.L, Dir.L]) :=
  lowestCommonAncestor_deepest (.node 3 (.node 5 (.node 6 .nil .nil) (.node 2 .nil .nil))
    (.node 1 .nil .nil)) [Dir.L, Dir.L] [Dir.L, Dir.R] (by decide) (by decide)

/-! ## Proofs: BST reconstruction from preorder -/

theorem buildBST_window (t : TreeNode) (fuel : Nat) (p1 p2 : List Int) (bound : Int)
    (hb : isBST t) (hle : ∀ x ∈ inorderSeq t, x ≤ bound)
    (hnext : ∀ y, p2.head? = some y → bound < y) (hf : t.size < fuel) :
    buildBST fuel (p1 ++ preorderSeq t ++ p2) p1.length bound
      = .ok (t, p1.length + t.size) := by
  induction t generalizing fuel p1 p2 bound with
  | nil =>
    cases fuel with
    | zero => simp at hf
    | succ fuel =>
      cases p2 with
      | nil => simp [buildBST, preorderSeq, TreeNode.size]
      | cons y p3 =>
        have hy := hnext y rfl
        have hget : (p1 ++ preorderSeq .nil ++ y :: p3)[p1.length]? = some y := by
          rw [List.append_assoc, List.getElem?_append_right (le_refl _)]
          simp [preorderSeq]
        have hne : ¬ p1.length = (p1 ++ preorderSeq .nil ++ y :: p3).length := by
          simp [preorderSeq]
        rw [buildBST, if_neg hne]
        simp only [hget, gt_iff_lt, hy, if_true, TreeNode.size, Nat.add_zero]
  | node v l r ihl ihr =>
    cases fuel with
    | zero => simp at hf
    | succ fuel =>
      simp only [TreeNode.size] at hf
      obtain ⟨hl, hr, hbl, hbr⟩ := hb
      have hv : v ≤ bound := hle v (by simp [inorderSeq])
      have hne : ¬ p1.length = (p1 ++ preorderSeq (.node v l r) ++ p2).length := by
        simp [preorderSeq]
      have hget : (p1 ++ preorderSeq (.node v l r) ++ p2)[p1.length]? = some v := by
        rw [List.append_assoc, List.getElem?_append_right (le_refl _)]
        simp [preorderSeq]
      have hleft := ihl fuel (p1 ++ [v]) (preorderSeq r ++ p2) v hbl
        (fun x hx => le_of_lt (hl x hx))
        (by
          intro y hy
          cases r with
          | nil =>
            simp only [preorderSeq, List.nil_append] at hy
            exact lt_of_le_of_lt hv (hnext y hy)
          | node rv rl rr =>
            simp only [preorderSeq, List.cons_append, List.head?_cons, Option.some.injEq] at hy
            subst hy
            exact hr rv (by simp [inorderSeq]))
        (by omega)
      have hright := ihr fuel (p1 ++ [v] ++ preorderSeq l) p2 bound hbr
        (fun x hx => hle x (by simp [inorderSeq, hx])) hnext (by omega)
      have e1 : p1 ++ [v] ++ preorderSeq l ++ (preorderSeq r ++ p2)
          = p1 ++ preorderSeq (.node v l r) ++ p2 := by simp [preorderSeq]
      have e2 : p1 ++ [v] ++ preorderSeq l ++ preorderSeq r ++ p2
          = p1 ++ preorderSeq (.node v l r) ++ p2 := by simp [preorderSeq]
      have e3 : (p1 ++ [v]).length = p1.length + 1 := by simp
      have e4 : (p1 ++ [v] ++ preorderSeq l).length = p1.length + 1 + l.size := by
        simp [size_eq_length_preorderSeq]; omega
      rw [e1, e3] at hleft
      rw [e2, e4] at hright
      rw [buildBST, if_neg hne]
      simp only [hget, not_lt.mpr hv, if_false, gt_iff_lt]
      rw [hleft]
      simp only
      rw [hright]
      simp only [TreeNode.size]
      congr 2
      omega

/-- C8: for a strict BST and a bound at least its largest value, `buildBST` run on the
preorder sequence from cursor 0 returns that tree (with the cursor at the end), whose
inorder sequence is strictly ascending. -/
theorem buildBST_reconstructs (t : TreeNode) (bound : Int) (hb : isBST t)
    (hle : ∀ x ∈ inorderSeq t, x ≤ bound) (fuel : Nat) (hf : t.size < fuel) :
    buildBST fuel (preorderSeq t) 0 bound = .ok (t, (preorderSeq t).length)
      ∧ ∀ t2 i, buildBST fuel (preorderSeq t) 0 bound = .ok (t2, i) →
          (inorder t2 []).Sorted (· < ·) := by
  have h := buildBST_window t fuel [] [] bound hb hle (by simp) hf
  simp only [List.nil_append, List.append_nil, List.length_nil, Nat.zero_add] at h
  rw [size_eq_length_preorderSeq]
  refine ⟨h, ?_⟩
  intro t2 i h2
  rw [h] at h2
  cases h2
  rw [inorder_eq_append, List.nil_append]
  exact sorted_of_isBST _ hb

/-- Witness for C8: the BST with preorder 8 5 1 7 10 12 and bound 12. -/
theorem buildBST_reconstructs_witness :
    buildBST 7 (preorderSeq (.node 8 (.node 5 (.node 1 .nil .nil) (.node 7 .nil .nil))
        (.node 10 .nil (.node 12 .nil .nil)))) 0 12
      = .ok (.node 8 (.node 5 (.node 1 .nil .nil) (.node 7 .nil .nil))
        (.node 10 .nil (.node 12 .nil .nil)), 6) :=
  (buildBST_reconstructs (.node 8 (.node 5 (.node 1 .nil .nil) (.node 7 .nil .nil))
    (.node 10 .nil (.node 12 .nil .nil))) 12 (by decide) (by decide) 7 (by decide)).1

/-! ## Proofs: level order -/

theorem treeHeight_eq_levelCount (t : TreeNode) : treeHeight t = (levelCount t : Int) - 1 := by
  induction t with
  | nil => rfl
  | node v l r ihl ihr =>
    simp only [treeHeight, levelCount, ihl, ihr]
    push_cast
    omega

theorem queueValuesAtDepth_append (d : Nat) (a b : List TreeNode) :
    queueValuesAtDepth d (a ++ b) = queueValuesAtDepth d a ++ queueValuesAtDepth d b := by
  induction a with
  | nil => rfl
  | cons t a ih => simp [queueValuesAtDepth, ih]

theorem queueValuesAtDepth_pushed (d : Nat) (t : TreeNode) :
    queueValuesAtDepth d (pushed t) = valuesAtDepth d t := by
  cases t with
  | nil => cases d <;> rfl
  | node v l r => simp [pushed, queueValuesAtDepth]

theorem queueValuesAtDepth_childrenOf (d : Nat) (q : List TreeNode) :
    queueValuesAtDepth d (childrenOf q) = queueValuesAtDepth (d + 1) q := by
  induction q with
  | nil => rfl
  | cons t q ih =>
    cases t with
    | nil =>
      simp [childrenOf, queueValuesAtDepth, queueValuesAtDepth_append, ih, leftOf, rightOf,
        pushed, valuesAtDepth]
    | node v l r =>
      simp [childrenOf, queueValuesAtDepth, queueValuesAtDepth_append, ih, leftOf, rightOf,
        queueValuesAtDepth_pushed, valuesAtDepth]

theorem queueLevels_append (a b : List TreeNode) :
    queueLevels (a ++ b) = max (queueLevels a) (queueLevels b) := by
  induction a with
  | nil => simp [queueLevels]
  | cons t a ih => simp [queueLevels, ih, max_assoc]

theorem queueLevels_pushed (t : TreeNode) : queueLevels (pushed t) = levelCount t := by
  cases t with
  | nil => rfl
  | node v l r => simp [pushed, queueLevels]

theorem queueLevels_childrenOf (q : List TreeNode) :
    queueLevels (childrenOf q) = queueLevels q - 1 := by
  induction q with
  | nil => rfl
  | cons t q ih =>
    cases t with
    | nil =>
      simp [childrenOf, queueLevels, queueLevels_append, ih, leftOf, rightOf, pushed, levelCount]
    | node v l r =>
      simp only [childrenOf, queueLevels, queueLevels_append, ih, leftOf, rightOf,
        queueLevels_pushed, levelCount]
      omega

theorem mem_pushed (t x : TreeNode) (h : x ∈ pushed t) : x ≠ .nil := by
  cases t with
  | nil => simp [pushed] at h
  | node v l r =>
    simp only [pushed, List.mem_singleton] at h
    subst h
    simp

theorem mem_childrenOf (q : List TreeNode) (x : TreeNode) (h : x ∈ childrenOf q) : x ≠ .nil := by
  induction q with
  | nil => simp [childrenOf] at h
  | cons t q ih =>
    simp only [childrenOf, List.mem_append] at h
    rcases h with (h | h) | h
    · exact mem_pushed _ _ h
    · exact mem_pushed _ _ h
    · exact ih h

theorem levelPass_spec (a b : List TreeNode) (lvl : List Int) (ha : ∀ t ∈ a, t ≠ .nil) :
    levelPass a.length (a ++ b) lvl = (b ++ childrenOf a, lvl ++ queueValuesAtDepth 0 a) := by
  induction a generalizing b lvl with
  | nil => simp [levelPass, childrenOf, queueValuesAtDepth]
  | cons t a ih =>
    cases t with
    | nil => exact absurd rfl (ha .nil (by simp))
    | node v l r =>
      have h := ih (b ++ pushed l ++ pushed r) (lvl ++ [v]) (fun t ht => ha t (by simp [ht]))
      have e : a ++ b ++ pushed l ++ pushed r = a ++ (b ++ pushed l ++ pushed r) := by simp
      show levelPass a.length (a ++ b ++ pushed l ++ pushed r) (lvl ++ [v]) = _
      rw [e, h]
      simp [childrenOf, queueValuesAtDepth, valuesAtDepth, leftOf, rightOf]

theorem levelOrderLoop_spec (n : Nat) (q : List TreeNode) (res : List (List Int)) (fuel : Nat)
    (hq : ∀ t ∈ q, t ≠ .nil) (hn : queueLevels q = n) (hf : n < fuel) :
    levelOrderLoop fuel q res
      = .ok (res ++ (List.range n).map (fun d => queueValuesAtDepth d q)) := by
  induction n generalizing q res fuel with
  | zero =>
    cases fuel with
    | zero => omega
    | succ fuel =>
      cases q with
      | nil => simp [levelOrderLoop]
      | cons t q =>
        cases t with
        | nil => exact absurd rfl (hq .nil (by simp))
        | node v l r => simp [queueLevels, levelCount] at hn
  | succ n ih =>
    cases fuel with
    | zero => omega
    | succ fuel =>
      have hne : q.isEmpty = false := by
        cases q with
        | nil => simp [queueLevels] at hn
        | cons t q => rfl
      have hpass := levelPass_spec q [] [] hq
      rw [List.append_nil] at hpass
      simp only [levelOrderLoop, hne, Bool.false_eq_true, if_false, hpass, List.nil_append]
      rw [ih (childrenOf q) _ fuel (fun t ht => mem_childrenOf q t ht)
        (by rw [queueLevels_childrenOf, hn]; rfl) (by omega)]
      congr 1
      rw [List.range_succ_eq_map]
      simp [queueValuesAtDepth_childrenOf, Function.comp_def]

theorem valuesAtDepth_ne_nil (t : TreeNode) (d : Nat) (h : d < levelCount t) :
    valuesAtDepth d t ≠ [] := by
  induction t generalizing d with
  | nil => simp [levelCount] at h
  | node v l r ihl ihr =>
    cases d with
    | zero => simp [valuesAtDepth]
    | succ d =>
      simp only [levelCount] at h
      simp only [valuesAtDepth, ne_eq, List.append_eq_nil, not_and]
      intro hl
      by_cases hd : d < levelCount l
      · exact absurd hl (ihl d hd)
      · exact ihr d (by omega)

/-- C9: `levelOrder` returns, for depth 0 up to `treeHeight`, the values at that depth from
left to right: no level for the absent tree, `treeHeight + 1` levels otherwise, none of
them empty. -/
theorem levelOrder_levels (t : TreeNode) (fuel : Nat) (hf : treeHeight t + 1 < fuel) :
    ∃ res, levelOrder fuel t = .ok res
      ∧ res = (List.range (treeHeight t + 1).toNat).map (fun d => valuesAtDepth d t)
      ∧ res.length = (treeHeight t + 1).toNat
      ∧ (t = .nil → res = [])
      ∧ ∀ lvl ∈ res, lvl ≠ [] := by
  have hh := treeHeight_eq_levelCount t
  have hcount : (treeHeight t + 1).toNat = levelCount t := by omega
  rw [hcount]
  refine ⟨_, ?_, rfl, by simp, ?_, ?_⟩
  · cases t with
    | nil => simp [levelOrder, levelCount]
    | node v l r =>
      have h := levelOrderLoop_spec (levelCount (.node v l r)) [.node v l r] [] fuel
        (by simp) (by simp [queueLevels]) (by omega)
      simp only [levelOrder, h, List.nil_append]
      congr 2
      funext d
      simp [queueValuesAtDepth]
  · intro ht
    subst ht
    rfl
  · intro lvl hl
    simp only [List.mem_map, List.mem_range] at hl
    obtain ⟨d, hd, rfl⟩ := hl
    exact valuesAtDepth_ne_nil t d hd

/-- Witness for C9: the perfect tree with seven nodes gives the levels 1, 2 3 and 4 5 6 7. -/
theorem levelOrder_levels_witness :
    levelOrder 4 (.node 1 (.node 2 (.node 4 .nil .nil) (.node 5 .nil .nil))
        (.node 3 (.node 6 .nil .nil) (.node 7 .nil .nil)))
      = .ok [[1], [2, 3], [4, 5, 6, 7]] := by
  obtain ⟨res, h1, h2, _⟩ := levelOrder_levels (.node 1 (.node 2 (.node 4 .nil .nil)
    (.node 5 .nil .nil)) (.node 3 (.node 6 .nil .nil) (.node 7 .nil .nil))) 4 (by decide)
  rw [h1, h2]
  decide

/-! ## Proofs: level linking -/

theorem shapeOf_setNext (t : Node) (p : Path) (x : Option Path) :
    shapeOf (setNext t p x) = shapeOf t := by
  induction t generalizing p with
  | nil => rfl
  | node v l r nx ihl ihr =>
    cases p with
    | nil => rfl
    | cons d p =>
      cases d with
      | L => simp [setNext, shapeOf, ihl]
      | R => simp [setNext, shapeOf, ihr]

theorem shapeOf_nodeAt (t : Node) (p : Path) : shapeOf (nodeAt t p) = subtreeAt (shapeOf t) p := by
  induction p generalizing t with
  | nil => simp [nodeAt, subtreeAt]
  | cons d p ih =>
    cases t with
    | nil => rfl
    | node v l r nx =>
      cases d with
      | L => simp [nodeAt, shapeOf, subtreeAt, ih]
      | R => simp [nodeAt, shapeOf, subtreeAt, ih]

theorem pushedAt_eq (n : Node) (p : Path) : pushedAt n p = pushedPos (shapeOf n) p := by
  cases n <;> rfl

theorem kidsAt_eq (t : Node) (p : Path) : kidsAt t p = kidsOfShape (shapeOf t) p := by
  unfold kidsAt kidsOfShape
  rw [← shapeOf_nodeAt]
  cases nodeAt t p with
  | nil => rfl
  | node v l r nx => simp [shapeOf, pushedAt_eq]

theorem nextAt_setNext (t : Node) (p q : Path) (x : Option Path) :
    nextAt (setNext t p x) q
      = if q = p then (if subtreeAt (shapeOf t) p = .nil then none else some x)
        else nextAt t q := by
  induction t generalizing p q with
  | nil =>
    cases p <;> cases q <;> simp [setNext, nextAt, nodeAt, shapeOf, subtreeAt]
  | node v l r nx ihl ihr =>
    cases p with
    | nil =>
      cases q with
      | nil => simp [setNext, nextAt, nodeAt, shapeOf, subtreeAt]
      | cons e q => cases e <;> simp [setNext, nextAt, nodeAt]
    | cons d p =>
      cases q with
      | nil => cases d <;> simp [setNext, nextAt, nodeAt]
      | cons e q =>
        cases d <;> cases e
        · have := ihl p q
          simp only [nextAt] at this
          simp [setNext, nextAt, nodeAt, shapeOf, subtreeAt, this]
        · simp [setNext, nextAt, nodeAt]
        · simp [setNext, nextAt, nodeAt]
        · have := ihr p q
          simp only [nextAt] at this
          simp [setNext, nextAt, nodeAt, shapeOf, subtreeAt, this]

theorem kidsOfShape_cons_L (v : Int) (l r : TreeNode) (p : Path) :
    kidsOfShape (.node v l r) (Dir.L :: p) = (kidsOfShape l p).map (fun q => Dir.L :: q) := by
  unfold kidsOfShape
  simp only [subtreeAt]
  cases subtreeAt l p with
  | nil => rfl
  | node w a b => cases a <;> cases b <;> simp [pushedPos]

theorem kidsOfShape_cons_R (v : Int) (l r : TreeNode) (p : Path) :
    kidsOfShape (.node v l r) (Dir.R :: p) = (kidsOfShape r p).map (fun q => Dir.R :: q) := by
  unfold kidsOfShape
  simp only [subtreeAt]
  cases subtreeAt r p with
  | nil => rfl
  | node w a b => cases a <;> cases b <;> simp [pushedPos]

theorem kidsOfQueue_append (t : TreeNode) (a b : List Path) :
    kidsOfQueue t (a ++ b) = kidsOfQueue t a ++ kidsOfQueue t b := by
  induction a with
  | nil => rfl
  | cons p a ih => simp [kidsOfQueue, ih]

theorem kidsOfQueue_map_L (v : Int) (l r : TreeNode) (q : List Path) :
    kidsOfQueue (.node v l r) (q.map (fun p => Dir.L :: p))
      = (kidsOfQueue l q).map (fun p => Dir.L :: p) := by
  induction q with
  | nil => rfl
  | cons p q ih => simp [kidsOfQueue, ih, kidsOfShape_cons_L]

theorem kidsOfQueue_map_R (v : Int) (l r : TreeNode) (q : List Path) :
    kidsOfQueue (.node v l r) (q.map (fun p => Dir.R :: p))
      = (kidsOfQueue r q).map (fun p => Dir.R :: p) := by
  induction q with
  | nil => rfl
  | cons p q ih => simp [kidsOfQueue, ih, kidsOfShape_cons_R]

theorem positionsAtDepth_succ (d : Nat) (t : TreeNode) :
    positionsAtDepth (d + 1) t = kidsOfQueue t (positionsAtDepth d t) := by
  induction d generalizing t with
  | zero =>
    cases t with
    | nil => rfl
    | node v l r =>
      cases l <;> cases r <;>
        simp [positionsAtDepth, kidsOfQueue, kidsOfShape, subtreeAt, pushedPos]
  | succ d ih =>
    cases t with
    | nil => rfl
    | node v l r =>
      have e : positionsAtDepth (d + 1 + 1) (.node v l r)
          = (positionsAtDepth (d + 1) l).map (fun p => Dir.L :: p)
            ++ (positionsAtDepth (d + 1) r).map (fun p => Dir.R :: p) := rfl
      have e2 : positionsAtDepth (d + 1) (.node v l r)
          = (positionsAtDepth d l).map (fun p => Dir.L :: p)
            ++ (positionsAtDepth d r).map (fun p => Dir.R :: p) := rfl
      rw [e, e2, kidsOfQueue_append, kidsOfQueue_map_L, kidsOfQueue_map_R, ih l, ih r]

theorem mem_positionsAtDepth (d : Nat) (t : TreeNode) (p : Path) :
    p ∈ positionsAtDepth d t ↔ p.length = d ∧ subtreeAt t p ≠ .nil := by
  induction d generalizing t p with
  | zero =>
    cases t with
    | nil => cases p <;> simp [positionsAtDepth, subtreeAt]
    | node v l r => cases p <;> simp [positionsAtDepth, subtreeAt]
  | succ d ih =>
    cases t with
    | nil => cases p <;> simp [positionsAtDepth, subtreeAt]
    | node v l r =>
      cases p with
      | nil => simp [positionsAtDepth]
      | cons e p =>
        cases e <;> simp [positionsAtDepth, subtreeAt, ih]

theorem nodup_positionsAtDepth (d : Nat) (t : TreeNode) : (positionsAtDepth d t).Nodup := by
  induction d generalizing t with
  | zero => cases t <;> simp [positionsAtDepth]
  | succ d ih =>
    cases t with
    | nil => simp [positionsAtDepth]
    | node v l r =>
      simp only [positionsAtDepth]
      refine List.Nodup.append ?_ ?_ ?_
      · exact (ih l).map (fun a b h => by simpa using h)
      · exact (ih r).map (fun a b h => by simpa using h)
      · intro p h1 h2
        simp only [List.mem_map] at h1 h2
        obtain ⟨a, _, rfl⟩ := h1
        obtain ⟨b, _, hb⟩ := h2
        simp at hb

theorem length_lt_levelCount (t : TreeNode) (p : Path) (h : subtreeAt t p ≠ .nil) :
    p.length < levelCount t := by
  induction p generalizing t with
  | nil =>
    cases t with
    | nil => simp [subtreeAt] at h
    | node v l r => simp [levelCount]
  | cons e p ih =>
    cases t with
    | nil => simp [subtreeAt] at h
    | node v l r =>
      cases e with
      | L =>
        have := ih l (by simpa [subtreeAt] using h)
        simp only [levelCount, List.length_cons]; omega
      | R =>
        have := ih r (by simpa [subtreeAt] using h)
        simp only [levelCount, List.length_cons]; omega

theorem positionsAtDepth_eq_nil (d : Nat) (t : TreeNode) (h : levelCount t ≤ d) :
    positionsAtDepth d t = [] := by
  rw [List.eq_nil_iff_forall_not_mem]
  intro p hp
  rw [mem_positionsAtDepth] at hp
  have := length_lt_levelCount t p hp.2
  omega

theorem followerIn_cons_of_ne (x : Path) (rest : List Path) (p : Path) (h : p ≠ x) :
    followerIn (x :: rest) p = followerIn rest p := by
  cases rest with
  | nil => rfl
  | cons y rest => simp [followerIn, h]

theorem followerIn_getLast (l : List Path) (p : Path) (hnd : l.Nodup)
    (h : l.getLast? = some p) : followerIn l p = none := by
  induction l with
  | nil => rfl
  | cons x rest ih =>
    cases rest with
    | nil => rfl
    | cons y rest =>
      rw [List.getLast?_cons_cons] at h
      have hmem : p ∈ y :: rest := List.mem_of_getLast?_eq_some h
      have hne : p ≠ x := by
        rintro rfl
        exact (List.nodup_cons.mp hnd).1 hmem
      rw [followerIn_cons_of_ne _ _ _ hne]
      exact ih (List.nodup_cons.mp hnd).2 h

theorem connectPass_spec (a b : List Path) (t : Node) (prev : Option Path)
    (hnd : (prev.toList ++ a).Nodup)
    (hpres : ∀ p ∈ prev.toList ++ a, subtreeAt (shapeOf t) p ≠ .nil) :
    (connectPass a.length t (a ++ b) prev).2.1 = b ++ kidsOfQueue (shapeOf t) a
      ∧ shapeOf (closeLevel (connectPass a.length t (a ++ b) prev).1
          (connectPass a.length t (a ++ b) prev).2.2) = shapeOf t
      ∧ ∀ p, nextAt (closeLevel (connectPass a.length t (a ++ b) prev).1
          (connectPass a.length t (a ++ b) prev).2.2) p
          = if p ∈ prev.toList ++ a then some (followerIn (prev.toList ++ a) p)
            else nextAt t p := by
  induction a generalizing b t prev with
  | nil =>
    cases prev with
    | none => simp [connectPass, closeLevel, kidsOfQueue]
    | some pv =>
      have hp := hpres pv (by simp)
      refine ⟨by simp [connectPass, kidsOfQueue], by simp [connectPass, closeLevel, shapeOf_setNext], ?_⟩
      intro p
      simp only [connectPass, closeLevel, List.length_nil, List.nil_append, Option.toList_some,
        List.append_nil, List.mem_singleton]
      rw [nextAt_setNext]
      by_cases hpp : p = pv
      · subst hpp; simp [hp, followerIn]
      · simp [hpp]
  | cons x a ih =>
    have hshape : shapeOf (linkPrev t prev x) = shapeOf t := by
      cases prev <;> simp [linkPrev, shapeOf_setNext]
    have hstep : connectPass (x :: a).length t (x :: a ++ b) prev
        = connectPass a.length (linkPrev t prev x)
            (a ++ (b ++ kidsAt (linkPrev t prev x) x)) (some x) := by
      simp [connectPass]
    have hnd2 : ((some x).toList ++ a).Nodup := by
      simp only [Option.toList_some, List.singleton_append]
      cases prev with
      | none => simpa using hnd
      | some pv =>
        simp only [Option.toList_some, List.singleton_append] at hnd
        exact (List.nodup_cons.mp hnd).2
    have hpres2 : ∀ p ∈ (some x).toList ++ a, subtreeAt (shapeOf (linkPrev t prev x)) p ≠ .nil := by
      intro p hp
      rw [hshape]
      apply hpres
      simp only [Option.toList_some, List.singleton_append] at hp
      simp [hp]
    obtain ⟨h1, h2, h3⟩ := ih (b ++ kidsAt (linkPrev t prev x) x) (linkPrev t prev x) (some x)
      hnd2 hpres2
    rw [hstep]
    refine ⟨?_, ?_, ?_⟩
    · rw [h1, hshape, kidsAt_eq, hshape]
      simp [kidsOfQueue]
    · rw [h2, hshape]
    · intro p
      rw [h3]
      cases prev with
      | none => simp [linkPrev]
      | some pv =>
        simp only [Option.toList_some, List.singleton_append] at hnd hpres ⊢
        have hpv : pv ∉ x :: a := (List.nodup_cons.mp hnd).1
        by_cases hpp : p = pv
        · subst hpp
          have hp := hpres p (by simp)
          rw [if_neg hpv, if_pos (by simp)]
          simp [linkPrev, nextAt_setNext, hp, followerIn]
        · have hm : p ∈ pv :: x :: a ↔ p ∈ x :: a := by simp [hpp]
          by_cases hin : p ∈ x :: a
          · rw [if_pos hin, if_pos (hm.mpr hin), followerIn_cons_of_ne _ _ _ hpp]
          · rw [if_neg hin, if_neg (fun h => hin (hm.mp h))]
            simp [linkPrev, nextAt_setNext, hpp]

theorem levelCount_le_of_positionsAtDepth_eq_nil (d : Nat) (t : TreeNode)
    (h : positionsAtDepth d t = []) : levelCount t ≤ d := by
  induction d generalizing t with
  | zero =>
    cases t with
    | nil => simp [levelCount]
    | node v l r => simp [positionsAtDepth] at h
  | succ d ih =>
    cases t with
    | nil => simp [levelCount]
    | node v l r =>
      simp only [positionsAtDepth, List.append_eq_nil, List.map_eq_nil_iff] at h
      have := ih l h.1
      have := ih r h.2
      simp only [levelCount]
      omega

theorem connectLoop_spec (n d : Nat) (t : Node) (fuel : Nat) (t0 : TreeNode)
    (hshape : shapeOf t = t0) (hn : levelCount t0 ≤ d + n) (hf : n < fuel)
    (hinv : ∀ p, subtreeAt t0 p ≠ .nil → p.length < d →
      nextAt t p = some (followerIn (positionsAtDepth p.length t0) p)) :
    ∃ res, connectLoop fuel t (positionsAtDepth d t0) = .ok res ∧ shapeOf res = t0
      ∧ ∀ p, subtreeAt t0 p ≠ .nil →
          nextAt res p = some (followerIn (positionsAtDepth p.length t0) p) := by
  induction n generalizing d t fuel with
  | zero =>
    cases fuel with
    | zero => omega
    | succ fuel =>
      have hq := positionsAtDepth_eq_nil d t0 (by omega)
      refine ⟨t, by simp [connectLoop, hq], hshape, ?_⟩
      intro p hp
      exact hinv p hp (by have := length_lt_levelCount t0 p hp; omega)
  | succ n ih =>
    cases fuel with
    | zero => omega
    | succ fuel =>
      by_cases hlev : levelCount t0 ≤ d
      · have hq := positionsAtDepth_eq_nil d t0 hlev
        refine ⟨t, by simp [connectLoop, hq], hshape, ?_⟩
        intro p hp
        exact hinv p hp (by have := length_lt_levelCount t0 p hp; omega)
      · have hne : (positionsAtDepth d t0).isEmpty = false := by
          cases hq : positionsAtDepth d t0 with
          | nil => exact absurd (levelCount_le_of_positionsAtDepth_eq_nil d t0 hq) hlev
          | cons x rest => rfl
        have hpass := connectPass_spec (positionsAtDepth d t0) [] t none
          (by simpa using nodup_positionsAtDepth d t0)
          (by
            intro p hp
            simp only [Option.toList_none, List.nil_append] at hp
            rw [hshape]
            exact ((mem_positionsAtDepth d t0 p).mp hp).2)
        simp only [List.append_nil, Option.toList_none, List.nil_append] at hpass
        obtain ⟨h1, h2, h3⟩ := hpass
        rw [hshape, ← positionsAtDepth_succ] at h1
        have hrec := ih (d + 1)
          (closeLevel (connectPass (positionsAtDepth d t0).length t (positionsAtDepth d t0) none).1
            (connectPass (positionsAtDepth d t0).length t (positionsAtDepth d t0) none).2.2)
          fuel (by rw [h2, hshape]) (by omega) (by omega)
          (by
            intro p hp hlen
            rw [h3]
            by_cases hin : p ∈ positionsAtDepth d t0
            · rw [if_pos hin, ((mem_positionsAtDepth d t0 p).mp hin).1]
            · rw [if_neg hin]
              apply hinv p hp
              have : p.length ≠ d := fun e => hin ((mem_positionsAtDepth d t0 p).mpr ⟨e, hp⟩)
              omega)
        rw [connectLoop]
        simp only [hne, Bool.false_eq_true, if_false]
        rw [h1]
        exact hrec

/-- C10: whatever the `next` references were before, `connect` leaves values and children as
they were and makes the `next` reference of every node the node that follows it among the
nodes of its depth from left to right, which is the null pointer for the last node of a depth. -/
theorem connect_links (root : Node) (fuel : Nat) (hf : levelCount (shapeOf root) < fuel) :
    ∃ res, connect fuel root = .ok res
      ∧ shapeOf res = shapeOf root
      ∧ (∀ p, subtreeAt (shapeOf root) p ≠ .nil →
          nextAt res p = some (followerIn (positionsAtDepth p.length (shapeOf root)) p))
      ∧ ∀ d p, (positionsAtDepth d (shapeOf root)).getLast? = some p →
          nextAt res p = some none := by
  have key : ∃ res, connect fuel root = .ok res ∧ shapeOf res = shapeOf root
      ∧ ∀ p, subtreeAt (shapeOf root) p ≠ .nil →
          nextAt res p = some (followerIn (positionsAtDepth p.length (shapeOf root)) p) := by
    cases root with
    | nil =>
      refine ⟨.nil, rfl, rfl, ?_⟩
      intro p hp
      cases p <;> simp [shapeOf, subtreeAt] at hp
    | node v l r nx =>
      have h := connectLoop_spec (levelCount (shapeOf (.node v l r nx))) 0 (.node v l r nx) fuel
        (shapeOf (.node v l r nx)) rfl (by omega) hf (by intro p _ hlen; omega)
      simpa [connect, shapeOf, positionsAtDepth] using h
  obtain ⟨res, h1, h2, h3⟩ := key
  refine ⟨res, h1, h2, h3, ?_⟩
  intro d p hlast
  have hmem : p ∈ positionsAtDepth d (shapeOf root) := List.mem_of_getLast?_eq_some hlast
  obtain ⟨hlen, hpres⟩ := (mem_positionsAtDepth d _ p).mp hmem
  rw [h3 p hpres, hlen, followerIn_getLast _ _ (nodup_positionsAtDepth d _) hlast]

/-- Witness for C10: the perfect tree with seven nodes, whose `next` references hold
arbitrary positions before the call. -/
theorem connect_links_witness :
    ∃ res, connect 4 (.node 1
        (.node 2 (.node 4 .nil .nil none) (.node 5 .nil .nil (some [])) (some [Dir.R]))
        (.node 3 (.node 6 .nil .nil none) (.node 7 .nil .nil (some [Dir.L])) (some [Dir.L]))
        (some [Dir.L])) = .ok res
      ∧ res = .node 1
        (.node 2 (.node 4 .nil .nil (some [Dir.L, Dir.R]))
          (.node 5 .nil .nil (some [Dir.R, Dir.L])) (some [Dir.R]))
        (.node 3 (.node 6 .nil .nil (some [Dir.R, Dir.R])) (.node 7 .nil .nil none) none)
        none := by
  obtain ⟨res, h1, _⟩ := connect_links (.node 1
    (.node 2 (.node 4 .nil .nil none) (.node 5 .nil .nil (some [])) (some [Dir.R]))
    (.node 3 (.node 6 .nil .nil none) (.node 7 .nil .nil (some [Dir.L])) (some [Dir.L]))
    (some [Dir.L])) 4 (by decide)
  refine ⟨res, h1, ?_⟩
  have h2 : connect 4 (.node 1
      (.node 2 (.node 4 .nil .nil none) (.node 5 .nil .nil (some [])) (some [Dir.R]))
      (.node 3 (.node 6 .nil .nil none) (.node 7 .nil .nil (some [Dir.L])) (some [Dir.L]))
      (some [Dir.L])) = .ok (.node 1
      (.node 2 (.node 4 .nil .nil (some [Dir.L, Dir.R]))
        (.node 5 .nil .nil (some [Dir.R, Dir.L])) (some [Dir.R]))
      (.node 3 (.node 6 .nil .nil (some [Dir.R, Dir.R])) (.node 7 .nil .nil none) none)
      none) := by decide
  rw [h2] at h1
  exact (Run.ok.inj h1).symm

/-! ## Proofs: structural equality, inversion, BST search, inorder -/

/-- C11: `isSameTree` returns true exactly when the two trees are structurally equal; it is
true of a tree and itself and false of trees that differ. -/
theorem isSameTree_iff_eq (p q : TreeNode) :
    (isSameTree p q = true ↔ p = q)
      ∧ isSameTree p p = true
      ∧ (p ≠ q → isSameTree p q = false) := by
  have key : ∀ a b : TreeNode, isSameTree a b = true ↔ a = b := by
    intro a
    induction a with
    | nil => intro b; cases b <;> simp [isSameTree]
    | node v l r ihl ihr =>
      intro b
      cases b with
      | nil => simp [isSameTree]
      | node w l2 r2 =>
        by_cases hvw : v = w
        · simp [isSameTree, hvw, ihl, ihr]
        · simp [isSameTree, hvw]
  refine ⟨key p q, (key p p).mpr rfl, ?_⟩
  intro hne
  cases h : isSameTree p q with
  | false => rfl
  | true => exact absurd ((key p q).mp h) hne

/-- Witness for C11: two trees that differ in one value are told apart. -/
theorem isSameTree_iff_eq_witness :
    isSameTree (.node 1 (.node 2 .nil .nil) .nil) (.node 1 (.node 3 .nil .nil) .nil) = false :=
  (isSameTree_iff_eq (.node 1 (.node 2 .nil .nil) .nil)
    (.node 1 (.node 3 .nil .nil) .nil)).2.2 (by decide)

theorem treeHeight_invertTree (t : TreeNode) : treeHeight (invertTree t) = treeHeight t := by
  induction t with
  | nil => rfl
  | node v l r ihl ihr => simp [invertTree, treeHeight, ihl, ihr, max_comm]

theorem invertTree_invertTree (t : TreeNode) : invertTree (invertTree t) = t := by
  induction t with
  | nil => rfl
  | node v l r ihl ihr => simp [invertTree, ihl, ihr]

/-- C12: `invertTree` exchanges the children at every node, returns the absent tree for the
absent tree, and applied twice gives back the tree, hence also its height. -/
theorem invertTree_involution (t : TreeNode) :
    invertTree (invertTree t) = t
      ∧ treeHeight (invertTree (invertTree t)) = treeHeight t
      ∧ invertTree t = mirrored t
      ∧ invertTree .nil = .nil
      ∧ treeHeight (invertTree t) = treeHeight t := by
  refine ⟨invertTree_invertTree t, by rw [invertTree_invertTree], ?_, rfl,
    treeHeight_invertTree t⟩
  induction t with
  | nil => rfl
  | node v l r ihl ihr => simp [invertTree, mirrored, ihl, ihr]

/-- C13: on a strict BST, `searchBST` returns a node of the tree holding the value when the
value occurs, and the null pointer when it does not. -/
theorem searchBST_finds (t : TreeNode) (val : Int) (h : isBST t) :
    (val ∈ inorderSeq t →
        rootVal (searchBST t val) = some val ∧ ∃ p, subtreeAt t p = searchBST t val)
      ∧ (val ∉ inorderSeq t → searchBST t val = .nil) := by
  induction t with
  | nil => simp [searchBST, inorderSeq]
  | node v l r ihl ihr =>
    obtain ⟨hl, hr, hbl, hbr⟩ := h
    obtain ⟨l1, l2⟩ := ihl hbl
    obtain ⟨r1, r2⟩ := ihr hbr
    simp only [searchBST]
    split_ifs with h1 h2
    · subst h1
      refine ⟨fun _ => ⟨rfl, [], by simp [subtreeAt]⟩, fun hn => ?_⟩
      exact absurd (by simp [inorderSeq]) hn
    · have hnr : val ∉ inorderSeq r := fun hx => lt_asymm (hr val hx) h2
      constructor
      · intro hmem
        simp only [inorderSeq, List.mem_append, List.mem_cons] at hmem
        have hin : val ∈ inorderSeq l := by
          rcases hmem with hx | hx | hx
          · exact hx
          · exact absurd hx.symm h1
          · exact absurd hx hnr
        obtain ⟨e1, p, hp⟩ := l1 hin
        exact ⟨e1, Dir.L :: p, by simpa [subtreeAt] using hp⟩
      · intro hn
        simp only [inorderSeq, List.mem_append, List.mem_cons, not_or] at hn
        exact l2 hn.1
    · have hgt : v < val := lt_of_le_of_ne (not_lt.mp h2) h1
      have hnl : val ∉ inorderSeq l := fun hx => lt_asymm (hl val hx) hgt
      constructor
      · intro hmem
        simp only [inorderSeq, List.mem_append, List.mem_cons] at hmem
        have hin : val ∈ inorderSeq r := by
          rcases hmem with hx | hx | hx
          · exact absurd hx hnl
          · exact absurd hx.symm h1
          · exact hx
        obtain ⟨e1, p, hp⟩ := r1 hin
        exact ⟨e1, Dir.R :: p, by simpa [subtreeAt] using hp⟩
      · intro hn
        simp only [inorderSeq, List.mem_append, List.mem_cons, not_or] at hn
        exact r2 hn.2.2

/-- Witness for C13: searching 4 and the absent 6 in the BST with inorder 2 3 4 5 7. -/
theorem searchBST_finds_witness :
    rootVal (searchBST (.node 5 (.node 3 (.node 2 .nil .nil) (.node 4 .nil .nil))
        (.node 7 .nil .nil)) 4) = some 4
      ∧ searchBST (.node 5 (.node 3 (.node 2 .nil .nil) (.node 4 .nil .nil))
        (.node 7 .nil .nil)) 6 = .nil :=
  ⟨((searchBST_finds (.node 5 (.node 3 (.node 2 .nil .nil) (.node 4 .nil .nil))
      (.node 7 .nil .nil)) 4 (by decide)).1 (by decide)).1,
   (searchBST_finds (.node 5 (.node 3 (.node 2 .nil .nil) (.node 4 .nil .nil))
      (.node 7 .nil .nil)) 6 (by decide)).2 (by decide)⟩

/-- C17: `inorder` appends to `res` the values in left subtree, node, right subtree order and
leaves what `res` held in place; for a strict BST the appended values are non-decreasing. -/
theorem inorder_appends (t : TreeNode) (res : List Int) :
    inorder t res = res ++ inorderSeq t
      ∧ (inorder t res).take res.length = res
      ∧ (isBST t → ((inorder t res).drop res.length).Sorted (· ≤ ·)) := by
  have h := inorder_eq_append t res
  refine ⟨h, by rw [h]; simp, ?_⟩
  intro hb
  rw [h, List.drop_left]
  exact (sorted_of_isBST t hb).imp (fun hab => le_of_lt hab)

/-- Witness for C17: the BST with inorder 2 3 4 5 7 appended to the list 9 1. -/
theorem inorder_appends_witness :
    ((inorder (.node 5 (.node 3 (.node 2 .nil .nil) (.node 4 .nil .nil))
        (.node 7 .nil .nil)) [9, 1]).drop ([9, 1] : List Int).length).Sorted (· ≤ ·) :=
  (inorder_appends (.node 5 (.node 3 (.node 2 .nil .nil) (.node 4 .nil .nil))
    (.node 7 .nil .nil)) [9, 1]).2.2 (by decide)

/-! ## Proofs: buildBST on arbitrary sequences -/

theorem slice_cons_append (xs : List Int) (i j1 j2 : Nat) (v : Int)
    (hv : xs[i]? = some v) (h1 : i + 1 ≤ j1) (h2 : j1 ≤ j2) :
    (xs.drop i).take (j2 - i)
      = v :: ((xs.drop (i + 1)).take (j1 - (i + 1)) ++ (xs.drop j1).take (j2 - j1)) := by
  have hlt : i < xs.length := by
    rcases Nat.lt_or_ge i xs.length with h | h
    · exact h
    · rw [List.getElem?_eq_none h] at hv; cases hv
  have hget : xs[i] = v := by
    rw [List.getElem?_eq_getElem hlt] at hv
    exact Option.some.inj hv
  rw [List.drop_eq_getElem_cons hlt, hget]
  have e1 : j2 - i = (j2 - (i + 1)) + 1 := by omega
  rw [e1, List.take_succ_cons]
  have e2 : j2 - (i + 1) = (j1 - (i + 1)) + (j2 - j1) := by omega
  rw [e2, List.take_add, List.drop_drop]
  have e3 : i + 1 + (j1 - (i + 1)) = j1 := by omega
  rw [e3]

theorem buildBST_slice (fuel : Nat) (xs : List Int) (i : Nat) (b : Int)
    (hi : i ≤ xs.length) (hf : xs.length - i < fuel) :
    ∃ t j, buildBST fuel xs i b = .ok (t, j) ∧ i ≤ j ∧ j ≤ xs.length
      ∧ preorderSeq t = (xs.drop i).take (j - i)
      ∧ (j = xs.length ∨ ∃ y, xs[j]? = some y ∧ b < y) := by
  induction fuel generalizing i b with
  | zero => omega
  | succ fuel ih =>
    by_cases hend : i = xs.length
    · refine ⟨.nil, i, by simp [buildBST, hend], le_refl _, hi, by simp [preorderSeq],
        Or.inl hend⟩
    · have hlt : i < xs.length := by omega
      have hget : xs[i]? = some xs[i] := List.getElem?_eq_getElem hlt
      by_cases hgt : xs[i] > b
      · refine ⟨.nil, i, ?_, le_refl _, hi, by simp [preorderSeq], Or.inr ⟨xs[i], hget, hgt⟩⟩
        rw [buildBST, if_neg hend]
        simp only [hget, hgt, if_true]
      · obtain ⟨l, j1, hl, hl1, hl2, hl3, _⟩ := ih (i + 1) xs[i] (by omega) (by omega)
        obtain ⟨r, j2, hr, hr1, hr2, hr3, hr4⟩ := ih j1 b hl2 (by omega)
        refine ⟨.node xs[i] l r, j2, ?_, by omega, hr2, ?_, hr4⟩
        · rw [buildBST, if_neg hend]
          simp only [hget, hgt, if_false]
          rw [hl]
          simp only
          rw [hr]
        · rw [slice_cons_append xs i j1 j2 xs[i] hget hl1 hr1, preorderSeq, hl3, hr3]

/-- C19: for every sequence, every cursor within it and every bound, `buildBST` (with a
recursion budget above the number of values left) returns a tree and a final cursor `j`
with `i ≤ j ≤ length`; the preorder of the tree is the slice from `i` to `j`, and either
`j` is the length or the value at `j` exceeds the bound.  When no value exceeds the bound
the final cursor is the length, and from cursor 0 the preorder is the whole sequence. -/
theorem buildBST_consumes_slice (xs : List Int) (i : Nat) (b : Int) (fuel : Nat)
    (hi : i ≤ xs.length) (hf : xs.length - i < fuel) :
    ∃ t j, buildBST fuel xs i b = .ok (t, j) ∧ i ≤ j ∧ j ≤ xs.length
      ∧ preorderSeq t = (xs.drop i).take (j - i)
      ∧ (j = xs.length ∨ ∃ y, xs[j]? = some y ∧ b < y)
      ∧ ((∀ x ∈ xs, x ≤ b) → j = xs.length ∧ (i = 0 → preorderSeq t = xs)) := by
  obtain ⟨t, j, h1, h2, h3, h4, h5⟩ := buildBST_slice fuel xs i b hi hf
  refine ⟨t, j, h1, h2, h3, h4, h5, ?_⟩
  intro hall
  have hj : j = xs.length := by
    rcases h5 with h | ⟨y, hy, hlt⟩
    · exact h
    · have := hall y (List.getElem?_mem hy)
      omega
  refine ⟨hj, ?_⟩
  intro h0
  rw [h4, h0, hj]
  simp

/-- Witness for C19: the sequence 3 1 4 1 5 is no preorder of a strict BST; with bound 9
it is consumed whole. -/
theorem buildBST_consumes_slice_witness :
    ∃ t j, buildBST 6 [3, 1, 4, 1, 5] 0 9 = .ok (t, j) ∧ 0 ≤ j
      ∧ j ≤ ([3, 1, 4, 1, 5] : List Int).length
      ∧ preorderSeq t = (([3, 1, 4, 1, 5] : List Int).drop 0).take (j - 0)
      ∧ (j = ([3, 1, 4, 1, 5] : List Int).length
          ∨ ∃ y, ([3, 1, 4, 1, 5] : List Int)[j]? = some y ∧ 9 < y)
      ∧ ((∀ x ∈ ([3, 1, 4, 1, 5] : List Int), x ≤ 9) →
          j = ([3, 1, 4, 1, 5] : List Int).length
            ∧ (0 = 0 → preorderSeq t = [3, 1, 4, 1, 5])) :=
  buildBST_consumes_slice [3, 1, 4, 1, 5] 0 9 6 (by decide) (by decide)

/-! ## Proofs: termination of buildTree -/

theorem index_two_of_missing_or_zero (m : InMap)
    (hm : m.lookup 2 = none ∨ m.lookup 2 = some 0) :
    (m.index 2).1 = 0 ∧ ((m.index 2).2.lookup 2 = none ∨ (m.index 2).2.lookup 2 = some 0) := by
  rcases hm with h | h
  · simp [InMap.index, h, List.lookup]
  · simp [InMap.index, h]

theorem buildTreeHelper_repeats (fuel : Nat) (m : InMap)
    (hm : m.lookup 2 = none ∨ m.lookup 2 = some 0) :
    buildTreeHelper fuel [1, 2] 1 1 [3, 4] 1 1 m = .fuel := by
  induction fuel generalizing m with
  | zero => rfl
  | succ fuel ih =>
    obtain ⟨h0, h1⟩ := index_two_of_missing_or_zero m hm
    have hget : ([1, 2] : List Int)[(1 : Int).toNat]? = some 2 := by decide
    rw [buildTreeHelper, if_neg (by decide), if_neg (by decide)]
    simp only [hget, h0]
    cases fuel with
    | zero => rfl
    | succ fuel =>
      have hleft : buildTreeHelper (fuel + 1) [1, 2] (1 + 1) (1 + (0 - 1)) [3, 4] 1 (0 - 1)
          (m.index 2).2 = .ok (.nil, (m.index 2).2) := by
        rw [buildTreeHelper, if_pos (by decide)]
      rw [hleft]
      simp only
      have e1 : (1 : Int) + (0 - 1) + 1 = 1 := by decide
      have e2 : (0 : Int) + 1 = 1 := by decide
      rw [e1, e2, ih _ h1]

theorem buildTree_loops (fuel : Nat) : buildTree fuel [1, 2] [3, 4] = .fuel := by
  cases fuel with
  | zero => rfl
  | succ fuel =>
    have hm : fillInMap [3, 4] 0 [] = [(4, 1), (3, 0)] := by decide
    have hidx : InMap.index [(4, 1), (3, 0)] 1 = (0, [(1, 0), (4, 1), (3, 0)]) := by decide
    have hget : ([1, 2] : List Int)[(0 : Int).toNat]? = some 1 := by decide
    unfold buildTree
    rw [hm]
    have hlen1 : ((([1, 2] : List Int).length : Nat) : Int) - 1 = 1 := by decide
    have hlen2 : ((([3, 4] : List Int).length : Nat) : Int) - 1 = 1 := by decide
    rw [hlen1, hlen2, buildTreeHelper, if_neg (by decide), if_neg (by decide)]
    simp only [hget, hidx]
    cases fuel with
    | zero => rfl
    | succ fuel =>
      have hleft : buildTreeHelper (fuel + 1) [1, 2] (0 + 1) (0 + (0 - 0)) [3, 4] 0 (0 - 1)
          [(1, 0), (4, 1), (3, 0)] = .ok (.nil, [(1, 0), (4, 1), (3, 0)]) := by
        rw [buildTreeHelper, if_pos (by decide)]
      rw [hleft]
      simp only
      have e1 : (0 : Int) + (0 - 0) + 1 = 1 := by decide
      have e2 : (0 : Int) + 1 = 1 := by decide
      rw [e1, e2, buildTreeHelper_repeats (fuel + 1) _ (Or.inl (by decide))]

/-- C18 (as stated, refuted): on preorder 1 2 and inorder 3 4 the recursion of
`buildTreeHelper` never reaches its base case: whatever the recursion budget, the run
of `buildTree` is still going on when the budget is used up. -/
theorem buildTree_does_not_terminate :
    ¬ (∀ pre ino : List Int, ∃ fuel, buildTree fuel pre ino ≠ .fuel) := by
  intro h
  obtain ⟨fuel, hf⟩ := h [1, 2] [3, 4]
  exact hf (buildTree_loops fuel)

/-- C18 (amended): on the preorder and inorder sequences of a tree with pairwise distinct
values the recursion ends within a depth of one more than the node count, and when either
sequence is empty it ends at the first call. -/
theorem buildTree_terminates_on_traversals (t : TreeNode) (pre ino : List Int) (fuel : Nat) :
    ((inorderSeq t).Nodup → t.size < fuel →
        buildTree fuel (preorderSeq t) (inorderSeq t) ≠ .fuel)
      ∧ (pre = [] ∨ ino = [] → buildTree (fuel + 1) pre ino ≠ .fuel) := by
  constructor
  · intro hnd hf
    have h := buildTreeHelper_window t fuel hf (preorderSeq t) (inorderSeq t) [] [] [] []
      (fillInMap (inorderSeq t) 0 []) (by simp) (by simp)
      (fun j k hj => by
        have := lookup_fillInMap (inorderSeq t) 0 [] k j hnd hj
        simpa using this)
    have e1 : (((preorderSeq t).length : Nat) : Int) - 1
        = (([] : List Int).length : Int) + t.size - 1 := by
      simp [size_eq_length_preorderSeq]
    have e2 : (((inorderSeq t).length : Nat) : Int) - 1
        = (([] : List Int).length : Int) + t.size - 1 := by
      simp [size_eq_length_inorderSeq]
    have e0 : (0 : Int) = (([] : List Int).length : Int) := by simp
    unfold buildTree
    rw [e1, e2, e0, h]
    simp
  · rintro (h | h)
    · subst h; simp [buildTree, buildTreeHelper]
    · subst h; simp [buildTree, buildTreeHelper]

/-- Witness for the amended C18: the traversals 2 1 3 and 1 2 3 of a three-node tree, and
an empty preorder. -/
theorem buildTree_terminates_on_traversals_witness :
    buildTree 4 (preorderSeq (.node 2 (.node 1 .nil .nil) (.node 3 .nil .nil)))
        (inorderSeq (.node 2 (.node 1 .nil .nil) (.node 3 .nil .nil))) ≠ .fuel
      ∧ buildTree 1 [] [3, 4] ≠ .fuel :=
  ⟨(buildTree_terminates_on_traversals (.node 2 (.node 1 .nil .nil) (.node 3 .nil .nil))
      [] [3, 4] 4).1 (by decide) (by decide),
   (buildTree_terminates_on_traversals .nil [] [3, 4] 0).2 (Or.inl rfl)⟩

/-! ## Proofs: counting BST shapes -/

theorem getD_set_self (l : List Int) (i : Nat) (v : Int) (h : i < l.length) :
    (l.set i v).getD i 0 = v := by
  simp [List.getD_eq_getElem?_getD, List.getElem?_set_self h]

theorem getD_set_ne (l : List Int) (i j : Nat) (v : Int) (h : i ≠ j) :
    (l.set i v).getD j 0 = l.getD j 0 := by
  simp [List.getD_eq_getElem?_getD, List.getElem?_set_ne h]

theorem numTreesInner_exact (nodes : Nat) (k r : Nat) (dp : List Int) (fits : Bool)
    (hk : r + k = nodes + 1) (hr : 1 ≤ r) (hlen : nodes < dp.length)
    (hlow : ∀ i, i < nodes → dp.getD i 0 = (catalan i : Int))
    (hcur : dp.getD nodes 0
      = ∑ i ∈ Finset.range (r - 1), (catalan i : Int) * (catalan (nodes - 1 - i) : Int)) :
    (numTreesInner id nodes k r (dp, fits)).1.length = dp.length
      ∧ (∀ i, i ≠ nodes → (numTreesInner id nodes k r (dp, fits)).1.getD i 0 = dp.getD i 0)
      ∧ (numTreesInner id nodes k r (dp, fits)).1.getD nodes 0
          = ∑ i ∈ Finset.range nodes, (catalan i : Int) * (catalan (nodes - 1 - i) : Int) := by
  induction k generalizing r dp fits with
  | zero =>
    have hr2 : r - 1 = nodes := by omega
    simp only [numTreesInner, true_and, implies_true]
    rw [hcur, hr2]
  | succ k ih =>
    simp only [numTreesInner, id]
    have h1 : dp.getD (r - 1) 0 = (catalan (r - 1) : Int) := hlow _ (by omega)
    have h2 : dp.getD (nodes - r) 0 = (catalan (nodes - r) : Int) := hlow _ (by omega)
    have hnew : (dp.set nodes (dp.getD nodes 0 + dp.getD (r - 1) 0 * dp.getD (nodes - r) 0)).getD
        nodes 0 = ∑ i ∈ Finset.range (r + 1 - 1),
          (catalan i : Int) * (catalan (nodes - 1 - i) : Int) := by
      rw [getD_set_self _ _ _ hlen, hcur, h1, h2]
      have e : r + 1 - 1 = (r - 1) + 1 := by omega
      rw [e, Finset.sum_range_succ]
      have e2 : nodes - 1 - (r - 1) = nodes - r := by omega
      rw [e2]
    obtain ⟨a1, a2, a3⟩ := ih (r + 1)
      (dp.set nodes (dp.getD nodes 0 + dp.getD (r - 1) 0 * dp.getD (nodes - r) 0)) _
      (by omega) (by omega) (by simpa using hlen)
      (fun i hi => by rw [getD_set_ne _ _ _ _ (by omega)]; exact hlow i hi) hnew
    refine ⟨by rw [a1]; simp, ?_, a3⟩
    intro i hi
    rw [a2 i hi, getD_set_ne _ _ _ _ (fun e => hi e.symm)]

theorem sum_range_catalan (m : Nat) :
    ∑ i ∈ Finset.range (m + 1), (catalan i : Int) * (catalan (m + 1 - 1 - i) : Int)
      = (catalan (m + 1) : Int) := by
  rw [catalan_succ, Finset.sum_range (fun i => (catalan i : Int) * (catalan (m + 1 - 1 - i) : Int))]
  push_cast
  rfl

theorem numTreesOuter_exact (n : Nat) (k nodes : Nat) (dp : List Int) (fits : Bool)
    (hk : nodes + k = n + 1) (hn : 1 ≤ nodes) (hlen : dp.length = n + 1)
    (hlow : ∀ i, i < nodes → dp.getD i 0 = (catalan i : Int))
    (hhigh : ∀ i, nodes ≤ i → dp.getD i 0 = 0) :
    ∀ i, i ≤ n → (numTreesOuter id k nodes (dp, fits)).1.getD i 0 = (catalan i : Int) := by
  induction k generalizing nodes dp fits with
  | zero =>
    intro i hi
    exact hlow i (by omega)
  | succ k ih =>
    obtain ⟨a1, a2, a3⟩ := numTreesInner_exact nodes nodes 1 dp fits (by omega) (le_refl _)
      (by omega) hlow (by simpa using hhigh nodes (le_refl _))
    simp only [numTreesOuter]
    have hpair : numTreesInner id nodes nodes 1 (dp, fits)
        = ((numTreesInner id nodes nodes 1 (dp, fits)).1,
            (numTreesInner id nodes nodes 1 (dp, fits)).2) := rfl
    rw [hpair]
    apply ih (nodes + 1) _ _ (by omega) (by omega) (by rw [a1, hlen])
    · intro i hi
      by_cases hin : i = nodes
      · subst hin
        rw [a3]
        obtain ⟨m, rfl⟩ : ∃ m, i = m + 1 := ⟨i - 1, by omega⟩
        exact sum_range_catalan m
      · rw [a2 i hin]
        exact hlow i (by omega)
    · intro i hi
      rw [a2 i (by omega)]
      exact hhigh i (by omega)

theorem numTreesExact_eq_catalan (n : Nat) : numTreesExact n = (catalan n : Int) := by
  unfold numTreesExact numTreesRun
  apply numTreesOuter_exact n n 1 _ true (by omega) (le_refl _) (by simp)
  · intro i hi
    have : i = 0 := by omega
    subst this
    rw [getD_set_self _ _ _ (by simp)]
    simp [catalan_zero]
  · intro i hi
    rw [getD_set_ne _ _ _ _ (by omega)]
    simp only [List.getD_eq_getElem?_getD, List.getElem?_replicate]
    split_ifs <;> rfl
  · exact le_refl n

/-! ## Proofs: numTrees with 32-bit entries -/

theorem wrap32_of_inInt32 (x : Int) (h : inInt32 x = true) : wrap32 x = x := by
  simp only [inInt32, Bool.and_eq_true, decide_eq_true_eq] at h
  unfold wrap32
  omega

theorem wrap32_add_multiple (x t : Int) : wrap32 (x + 4294967296 * t) = wrap32 x := by
  unfold wrap32
  have e : x + 4294967296 * t + 2147483648 = x + 2147483648 + 4294967296 * t := by ring
  rw [e, Int.add_mul_emod_self_left]

theorem wrap32_eq_add_multiple (a : Int) : ∃ k, wrap32 a = a + 4294967296 * k :=
  ⟨-((a + 2147483648) / 4294967296), by unfold wrap32; omega⟩

theorem wrap32_add (a b : Int) : wrap32 (wrap32 a + wrap32 b) = wrap32 (a + b) := by
  obtain ⟨ka, ha⟩ := wrap32_eq_add_multiple a
  obtain ⟨kb, hb⟩ := wrap32_eq_add_multiple b
  rw [ha, hb]
  have e : a + 4294967296 * ka + (b + 4294967296 * kb) = a + b + 4294967296 * (ka + kb) := by
    ring
  rw [e, wrap32_add_multiple]

theorem wrap32_mul (a b : Int) : wrap32 (wrap32 a * wrap32 b) = wrap32 (a * b) := by
  obtain ⟨ka, ha⟩ := wrap32_eq_add_multiple a
  obtain ⟨kb, hb⟩ := wrap32_eq_add_multiple b
  rw [ha, hb]
  have e : (a + 4294967296 * ka) * (b + 4294967296 * kb)
      = a * b + 4294967296 * (a * kb + ka * b + 4294967296 * ka * kb) := by ring
  rw [e, wrap32_add_multiple]

theorem getD_map_wrap32 (dp : List Int) (i : Nat) :
    (dp.map wrap32).getD i 0 = wrap32 (dp.getD i 0) := by
  simp only [List.getD_eq_getElem?_getD, List.getElem?_map]
  cases dp[i]? with
  | none => rfl
  | some v => rfl

theorem numTreesInner_wrap32 (nodes k r : Nat) (dp : List Int) (f1 f2 : Bool) :
    (numTreesInner wrap32 nodes k r (dp.map wrap32, f1)).1
      = (numTreesInner id nodes k r (dp, f2)).1.map wrap32 := by
  induction k generalizing r dp f1 f2 with
  | zero => rfl
  | succ k ih =>
    simp only [numTreesInner, id, getD_map_wrap32]
    have e : wrap32 (wrap32 (dp.getD nodes 0)
          + wrap32 (wrap32 (dp.getD (r - 1) 0) * wrap32 (dp.getD (nodes - r) 0)))
        = wrap32 (dp.getD nodes 0 + dp.getD (r - 1) 0 * dp.getD (nodes - r) 0) := by
      rw [wrap32_mul, wrap32_add]
    rw [e, ← List.map_set]
    exact ih _ _ _ _

theorem numTreesOuter_wrap32 (k nodes : Nat) (dp : List Int) (f1 f2 : Bool) :
    (numTreesOuter wrap32 k nodes (dp.map wrap32, f1)).1
      = (numTreesOuter id k nodes (dp, f2)).1.map wrap32 := by
  induction k generalizing nodes dp f1 f2 with
  | zero => rfl
  | succ k ih =>
    simp only [numTreesOuter]
    have h := numTreesInner_wrap32 nodes nodes 1 dp f1 f2
    have hp1 : numTreesInner wrap32 nodes nodes 1 (dp.map wrap32, f1)
        = ((numTreesInner id nodes nodes 1 (dp, f2)).1.map wrap32,
            (numTreesInner wrap32 nodes nodes 1 (dp.map wrap32, f1)).2) := by
      rw [← h]
    have hp2 : numTreesInner id nodes nodes 1 (dp, f2)
        = ((numTreesInner id nodes nodes 1 (dp, f2)).1,
            (numTreesInner id nodes nodes 1 (dp, f2)).2) := rfl
    rw [hp1]
    conv_rhs => rw [hp2]
    exact ih _ _ _ _

theorem numTrees32_eq_wrap32 (n : Nat) : numTrees32 n = wrap32 (numTreesExact n) := by
  unfold numTrees32 numTreesExact numTreesRun
  have hinit : (List.replicate (n + 1) (0 : Int)).set 0 1
      = ((List.replicate (n + 1) (0 : Int)).set 0 1).map wrap32 := by
    rw [List.map_set, List.map_replicate]
    rfl
  simp only
  conv_lhs => rw [hinit]
  rw [numTreesOuter_wrap32 n 1 _ true true, getD_map_wrap32]

set_option maxRecDepth 8000 in
theorem numTreesExact_fits_below_20 :
    ∀ n < 20, (numTreesRun id n).2 = true ∧ inInt32 (numTreesExact n) = true := by
  decide

set_option maxRecDepth 8000 in
theorem numTreesExact_20 : numTreesExact 20 = 6564120420 := by decide

/-- C20: with 32-bit signed table entries, for every `n ≤ 19` each product and each sum that
`numTrees` forms lies in the 32-bit range and the returned value is the `n`-th Catalan
number; for `n = 20` the Catalan number exceeds `2^31 - 1` and the returned value is its
two's-complement wrap, which differs from it. -/
theorem numTrees32_exact_up_to_19 :
    (∀ n, n ≤ 19 → (numTreesRun id n).2 = true ∧ numTrees32 n = (catalan n : Int))
      ∧ (2147483647 : Int) < (catalan 20 : Int)
      ∧ numTrees32 20 = wrap32 (catalan 20 : Int)
      ∧ numTrees32 20 ≠ (catalan 20 : Int) := by
  have h20 : (catalan 20 : Int) = 6564120420 := by
    rw [← numTreesExact_eq_catalan, numTreesExact_20]
  refine ⟨?_, ?_, ?_, ?_⟩
  · intro n hn
    obtain ⟨h1, h2⟩ := numTreesExact_fits_below_20 n (by omega)
    refine ⟨h1, ?_⟩
    rw [numTrees32_eq_wrap32, wrap32_of_inInt32 _ h2, numTreesExact_eq_catalan]
  · rw [h20]; decide
  · rw [numTrees32_eq_wrap32, numTreesExact_eq_catalan]
  · rw [numTrees32_eq_wrap32, numTreesExact_eq_catalan, h20]
    decide

/-- Witness for C20: at `n = 19` the 32-bit result is the Catalan number 1767263190. -/
theorem numTrees32_exact_up_to_19_witness :
    (numTreesRun id 19).2 = true ∧ numTrees32 19 = (catalan 19 : Int) :=
  numTrees32_exact_up_to_19.1 19 (by decide)

/-- C14 (as stated, refuted): at `n = 20` the source's 32-bit table returns -2025814172,
while the 20th Catalan number is 6564120420, so `numTrees` is not the Catalan number
for every `n`. -/
theorem numTrees_is_not_catalan_at_20 :
    numTrees32 20 = -2025814172
      ∧ (catalan 20 : Int) = 6564120420
      ∧ ¬ (∀ n : Nat, numTrees32 n = (catalan n : Int)) := by
  have h20 : (catalan 20 : Int) = 6564120420 := by
    rw [← numTreesExact_eq_catalan, numTreesExact_20]
  have hv : numTrees32 20 = -2025814172 := by
    rw [numTrees32_eq_wrap32, numTreesExact_20]
    decide
  refine ⟨hv, h20, ?_⟩
  intro h
  have := h 20
  rw [hv, h20] at this
  revert this
  decide

/-- C14 (amended): for every `n` from 0 to 19, `numTrees n` with its 32-bit table is the
`n`-th Catalan number, which is `C(2n, n) / (n + 1)` and the number of binary-tree shapes
with `n` nodes; its first four values are 1, 1, 2, 5. -/
theorem numTrees32_catalan_up_to_19 (n : Nat) (hn : n ≤ 19) :
    numTrees32 n = (catalan n : Int)
      ∧ numTrees32 n = ((Nat.choose (2 * n) n / (n + 1) : Nat) : Int)
      ∧ numTrees32 n = ((Tree.treesOfNumNodesEq n).card : Int)
      ∧ numTrees32 0 = 1 ∧ numTrees32 1 = 1 ∧ numTrees32 2 = 2 ∧ numTrees32 3 = 5 := by
  have hcat : numTrees32 n = (catalan n : Int) := by
    obtain ⟨_, h2⟩ := numTreesExact_fits_below_20 n (by omega)
    rw [numTrees32_eq_wrap32, wrap32_of_inInt32 _ h2, numTreesExact_eq_catalan]
  refine ⟨hcat, ?_, ?_, by decide, by decide, by decide, by decide⟩
  · rw [hcat, catalan_eq_centralBinom_div, Nat.centralBinom]
  · rw [hcat, Tree.treesOfNumNodesEq_card_eq_catalan]

/-- Witness for the amended C14: at `n = 19` the 32-bit result is the 19th Catalan number. -/
theorem numTrees32_catalan_up_to_19_witness : numTrees32 19 = (catalan 19 : Int) :=
  (numTrees32_catalan_up_to_19 19 (by decide)).1

/-! ## Proofs: heap indices -/

theorem ptr_lookup_filter_ne {α : Type} (m : PtrMap α) (k k2 : Path) (h : k2 ≠ k) :
    (m.filter (fun e => e.1 != k)).lookup k2 = m.lookup k2 := by
  induction m with
  | nil => rfl
  | cons e m ih =>
    obtain ⟨a, b⟩ := e
    by_cases hak : a = k
    · subst hak
      have h1 : (k2 == a) = false := by simpa using h
      simp [List.filter, List.lookup, h1, ih]
    · have h1 : (a != k) = true := by simpa using hak
      simp only [List.filter, h1, List.lookup]
      rw [ih]

theorem ptr_lookup_assign {α : Type} (m : PtrMap α) (k : Path) (v : α) (k2 : Path) :
    (m.assign k v).lookup k2 = if k2 = k then some v else m.lookup k2 := by
  unfold PtrMap.assign
  by_cases h : k2 = k
  · subst h; simp [List.lookup]
  · have h1 : (k2 == k) = false := by simpa using h
    simp only [List.lookup, h1, if_neg h]
    exact ptr_lookup_filter_ne m k k2 h

theorem subtreeAt_append (t : TreeNode) (a b : Path) :
    subtreeAt t (a ++ b) = subtreeAt (subtreeAt t a) b := by
  induction a generalizing t with
  | nil => simp [subtreeAt]
  | cons d a ih =>
    cases t with
    | nil => cases b <;> simp [subtreeAt]
    | node v l r => cases d <;> simp [subtreeAt, ih]

theorem subtreeAt_snoc_L (t : TreeNode) (a : Path) :
    subtreeAt t (a ++ [Dir.L]) = leftOf (subtreeAt t a) := by
  rw [subtreeAt_append]
  cases subtreeAt t a <;> simp [subtreeAt, leftOf]

theorem subtreeAt_snoc_R (t : TreeNode) (a : Path) :
    subtreeAt t (a ++ [Dir.R]) = rightOf (subtreeAt t a) := by
  rw [subtreeAt_append]
  cases subtreeAt t a <;> simp [subtreeAt, rightOf]

theorem heapIndex_snoc_L (p : Path) : heapIndex (p ++ [Dir.L]) = heapIndex p * 2 := by
  simp [heapIndex, List.foldl_append]

theorem heapIndex_snoc_R (p : Path) : heapIndex (p ++ [Dir.R]) = heapIndex p * 2 + 1 := by
  simp [heapIndex, List.foldl_append]

theorem heapIndex_bounds (p : Path) :
    (2 : Int) ^ p.length ≤ heapIndex p ∧ heapIndex p ≤ 2 ^ (p.length + 1) - 1 := by
  induction p using List.reverseRecOn with
  | nil => simp [heapIndex]
  | append_singleton p d ih =>
    obtain ⟨h1, h2⟩ := ih
    have e1 : (2 : Int) ^ (p ++ [d]).length = 2 ^ p.length * 2 := by
      simp [pow_succ]
    have e2 : (2 : Int) ^ ((p ++ [d]).length + 1) = 2 ^ (p.length + 1) * 2 := by
      simp [pow_succ]
    rw [e1, e2]
    cases d with
    | L => rw [heapIndex_snoc_L]; omega
    | R => rw [heapIndex_snoc_R]; omega

theorem heapIndex_injective (p q : Path) (h : heapIndex p = heapIndex q) : p = q := by
  induction p using List.reverseRecOn generalizing q with
  | nil =>
    rcases List.eq_nil_or_concat q with hq | ⟨q2, e, hq⟩
    · exact hq.symm
    · rw [List.concat_eq_append] at hq
      subst hq
      have hb := (heapIndex_bounds q2).1
      have hpos : (1 : Int) ≤ 2 ^ q2.length := one_le_pow₀ (by norm_num)
      have h1 : heapIndex ([] : Path) = 1 := rfl
      rw [h1] at h
      cases e with
      | L => rw [heapIndex_snoc_L] at h; omega
      | R => rw [heapIndex_snoc_R] at h; omega
  | append_singleton p d ih =>
    rcases List.eq_nil_or_concat q with hq | ⟨q2, e, hq⟩
    · subst hq
      have hb := (heapIndex_bounds p).1
      have hpos : (1 : Int) ≤ 2 ^ p.length := one_le_pow₀ (by norm_num)
      have h1 : heapIndex ([] : Path) = 1 := rfl
      rw [h1] at h
      cases d with
      | L => rw [heapIndex_snoc_L] at h; omega
      | R => rw [heapIndex_snoc_R] at h; omega
    · rw [List.concat_eq_append] at hq
      subst hq
      cases d <;> cases e <;>
        simp only [heapIndex_snoc_L, heapIndex_snoc_R] at h
      · rw [ih q2 (by omega)]
      · omega
      · omega
      · rw [ih q2 (by omega)]
theorem mem_pushedWith {α : Type} (t : TreeNode) (x y : α) (h : y ∈ pushedWith t x) :
    t ≠ .nil ∧ y = x := by
  cases t with
  | nil => simp [pushedWith] at h
  | node v l r =>
    simp only [pushedWith, List.mem_singleton] at h
    exact ⟨by simp, h⟩

theorem queueWeight_append {α : Type} (root : TreeNode) (a b : List (Path × α)) :
    queueWeight root (a ++ b) = queueWeight root a + queueWeight root b := by
  induction a with
  | nil => simp [queueWeight]
  | cons e a ih => simp [queueWeight, ih]; omega

theorem queueWeight_pushedWith {α : Type} (root t : TreeNode) (p : Path) (x : α)
    (h : subtreeAt root p = t) : queueWeight root (pushedWith t (p, x)) = t.size := by
  cases t with
  | nil => simp [pushedWith, queueWeight, TreeNode.size]
  | node v l r => simp [pushedWith, queueWeight, h]

theorem child_of_strict_isPrefix (root : TreeNode) (a p : Path) (hap : a <+: p) (hne : p ≠ a)
    (hp : subtreeAt root p ≠ .nil) :
    ∃ d, (a ++ [d]) <+: p ∧ subtreeAt root (a ++ [d]) ≠ .nil := by
  obtain ⟨s, hs⟩ := hap
  cases s with
  | nil => exact absurd (by simpa using hs.symm) hne
  | cons d s =>
    have hpre : (a ++ [d]) <+: p := ⟨s, by rw [← hs]; simp⟩
    exact ⟨d, hpre, subtreeAt_ne_nil_of_isPrefix root _ p hpre hp⟩

theorem wrap32_double (x : Int) : wrap32 (wrap32 x * 2) = wrap32 (x * 2) := by
  obtain ⟨k, hk⟩ := wrap32_eq_add_multiple x
  rw [hk]
  have e : (x + 4294967296 * k) * 2 = x * 2 + 4294967296 * (k * 2) := by ring
  rw [e, wrap32_add_multiple]

theorem wrap32_double_succ (x : Int) :
    wrap32 (wrap32 (wrap32 x * 2) + 1) = wrap32 (x * 2 + 1) := by
  rw [wrap32_double]
  obtain ⟨k, hk⟩ := wrap32_eq_add_multiple (x * 2)
  rw [hk]
  have e : x * 2 + 4294967296 * k + 1 = x * 2 + 1 + 4294967296 * k := by ring
  rw [e, wrap32_add_multiple]

theorem wrap32_heapIndex_of_length_le (p : Path) (h : p.length ≤ 30) :
    wrap32 (heapIndex p) = heapIndex p := by
  obtain ⟨h1, h2⟩ := heapIndex_bounds p
  have hpos : (1 : Int) ≤ 2 ^ p.length := one_le_pow₀ (by norm_num)
  have hle : (2 : Int) ^ (p.length + 1) ≤ 2 ^ 31 :=
    pow_le_pow_right₀ (by norm_num) (by omega)
  have h31 : (2 : Int) ^ 31 = 2147483648 := by norm_num
  apply wrap32_of_inInt32
  simp only [inInt32, Bool.and_eq_true, decide_eq_true_eq]
  omega

theorem heapIndexLoop_spec (fuel : Nat) (root : TreeNode) (q : List (Path × Int))
    (m : PtrMap Int) (hf : queueWeight root q < fuel)
    (hq : ∀ e ∈ q, subtreeAt root e.1 ≠ .nil ∧ e.2 = wrap32 (heapIndex e.1))
    (hm : ∀ p v, m.lookup p = some v → subtreeAt root p ≠ .nil ∧ v = wrap32 (heapIndex p))
    (hcov : ∀ p, subtreeAt root p ≠ .nil →
      m.lookup p = some (wrap32 (heapIndex p)) ∨ ∃ e ∈ q, e.1 <+: p) :
    ∃ res, heapIndexLoop fuel root q m = .ok res
      ∧ ∀ p, res.lookup p
          = if subtreeAt root p = .nil then none else some (wrap32 (heapIndex p)) := by
  induction fuel generalizing q m with
  | zero => omega
  | succ fuel ih =>
    cases q with
    | nil =>
      refine ⟨m, rfl, ?_⟩
      intro p
      by_cases hp : subtreeAt root p = .nil
      · rw [if_pos hp]
        cases hl : m.lookup p with
        | none => rfl
        | some v => exact absurd hp (hm p v hl).1
      · rw [if_neg hp]
        rcases hcov p hp with h | ⟨e, he, _⟩
        · exact h
        · simp at he
    | cons e q =>
      obtain ⟨a, i⟩ := e
      obtain ⟨ha, hi⟩ := hq (a, i) (by simp)
      simp only at ha hi
      simp only [heapIndexLoop]
      apply ih
      · have hw : queueWeight root ((a, i) :: q)
            = (subtreeAt root a).size + queueWeight root q := rfl
        rw [hw] at hf
        rw [queueWeight_append, queueWeight_append,
          queueWeight_pushedWith root _ _ _ (subtreeAt_snoc_L root a),
          queueWeight_pushedWith root _ _ _ (subtreeAt_snoc_R root a)]
        cases hs : subtreeAt root a with
        | nil => exact absurd hs ha
        | node v l r =>
          rw [hs] at hf
          simp only [TreeNode.size, leftOf, rightOf] at hf ⊢
          omega
      · intro e he
        simp only [List.mem_append] at he
        rcases he with (he | he) | he
        · exact hq e (by simp [he])
        · obtain ⟨h1, h2⟩ := mem_pushedWith _ _ _ he
          subst h2
          exact ⟨by rw [subtreeAt_snoc_L]; exact h1,
            by simp only; rw [heapIndex_snoc_L, hi, wrap32_double]⟩
        · obtain ⟨h1, h2⟩ := mem_pushedWith _ _ _ he
          subst h2
          exact ⟨by rw [subtreeAt_snoc_R]; exact h1,
            by simp only; rw [heapIndex_snoc_R, hi, wrap32_double_succ]⟩
      · intro p v hl
        rw [ptr_lookup_assign] at hl
        split_ifs at hl with hpa
        · subst hpa
          cases hl
          exact ⟨ha, hi⟩
        · exact hm p v hl
      · intro p hp
        by_cases hpa : p = a
        · subst hpa
          left
          rw [ptr_lookup_assign, if_pos rfl, hi]
        · rcases hcov p hp with h | ⟨e, he, hpre⟩
          · left
            rw [ptr_lookup_assign, if_neg hpa]
            exact h
          · right
            rcases List.mem_cons.mp he with he | he
            · subst he
              obtain ⟨d, hd, hpres⟩ := child_of_strict_isPrefix root a p hpre hpa hp
              cases d with
              | L =>
                refine ⟨(a ++ [Dir.L], wrap32 (i * 2)), ?_, hd⟩
                rw [subtreeAt_snoc_L] at hpres
                cases hs : leftOf (subtreeAt root a) with
                | nil => exact absurd hs hpres
                | node v l r => simp [pushedWith]
              | R =>
                refine ⟨(a ++ [Dir.R], wrap32 (wrap32 (i * 2) + 1)), ?_, hd⟩
                rw [subtreeAt_snoc_R] at hpres
                cases hs : rightOf (subtreeAt root a) with
                | nil => exact absurd hs hpres
                | node v l r => simp [pushedWith]
            · exact ⟨e, by simp [he], hpre⟩

theorem assignHeapIndex_lookup (root : TreeNode) (fuel : Nat) (hf : root.size < fuel) :
    ∃ res, assignHeapIndex fuel root = .ok res
      ∧ ∀ p, res.lookup p
          = if subtreeAt root p = .nil then none else some (wrap32 (heapIndex p)) := by
  cases root with
  | nil =>
    refine ⟨[], rfl, ?_⟩
    intro p
    cases p <;> simp [subtreeAt]
  | node v l r =>
    apply heapIndexLoop_spec
    · simpa [queueWeight, subtreeAt] using hf
    · intro e he
      simp only [List.mem_singleton] at he
      subst he
      exact ⟨by simp [subtreeAt], by decide⟩
    · intro p v hl
      simp at hl
    · intro p _
      exact Or.inr ⟨([], 1), by simp, List.nil_prefix⟩

theorem size_leftChain (n : Nat) : (leftChain n).size = n := by
  induction n with
  | zero => rfl
  | succ n ih => simp [leftChain, TreeNode.size, ih]

theorem subtreeAt_leftChain (n k : Nat) (h : k < n) :
    subtreeAt (leftChain n) (List.replicate k Dir.L) ≠ .nil := by
  induction k generalizing n with
  | zero =>
    cases n with
    | zero => omega
    | succ n => simp [leftChain, subtreeAt]
  | succ k ih =>
    cases n with
    | zero => omega
    | succ n =>
      simp only [leftChain, List.replicate_succ, subtreeAt]
      exact ih n (by omega)

/-- C15 (as stated, refuted): on the left chain of 34 nodes the node at depth 30 has index
`2^30`, its left child at depth 31 has index `-2^31` (neither twice `2^30` nor at least
`2^31`), and the nodes at depths 32 and 33 both have index 0. -/
theorem assignHeapIndex_wraps_on_deep_chain :
    ∃ res, assignHeapIndex 35 (leftChain 34) = .ok res
      ∧ res.lookup (List.replicate 30 Dir.L) = some 1073741824
      ∧ res.lookup (List.replicate 31 Dir.L) = some (-2147483648)
      ∧ res.lookup (List.replicate 32 Dir.L) = some 0
      ∧ res.lookup (List.replicate 33 Dir.L) = some 0
      ∧ ¬ (∀ p q i, res.lookup p = some i → res.lookup q = some i → p = q) := by
  obtain ⟨res, h1, h2⟩ := assignHeapIndex_lookup (leftChain 34) 35
    (by rw [size_leftChain]; omega)
  have v30 : res.lookup (List.replicate 30 Dir.L) = some 1073741824 := by
    rw [h2, if_neg (subtreeAt_leftChain 34 30 (by omega))]; decide
  have v31 : res.lookup (List.replicate 31 Dir.L) = some (-2147483648) := by
    rw [h2, if_neg (subtreeAt_leftChain 34 31 (by omega))]; decide
  have v32 : res.lookup (List.replicate 32 Dir.L) = some 0 := by
    rw [h2, if_neg (subtreeAt_leftChain 34 32 (by omega))]; decide
  have v33 : res.lookup (List.replicate 33 Dir.L) = some 0 := by
    rw [h2, if_neg (subtreeAt_leftChain 34 33 (by omega))]; decide
  refine ⟨res, h1, v30, v31, v32, v33, ?_⟩
  intro h
  have := congrArg List.length (h _ _ 0 v32 v33)
  simp at this

/-- C15 (amended): `assignHeapIndex` returns a map whose keys are exactly the nodes of the
tree; the root has index 1, and a present left child of a node with index `i` has index
`2i`, a present right child `2i + 1`, both reduced to a 32-bit `int`.  For a child at
depth at most 30 the indices are exactly `2i` and `2i + 1`; a node at depth `d ≤ 30` has
an index from `2^d` to `2^(d+1) - 1`, and distinct nodes at depth at most 30 have
distinct indices. -/
theorem assignHeapIndex_layout_to_depth_30 (root : TreeNode) (fuel : Nat)
    (hf : root.size < fuel) :
    ∃ res, assignHeapIndex fuel root = .ok res
      ∧ (∀ p, res.lookup p ≠ none ↔ subtreeAt root p ≠ .nil)
      ∧ (root ≠ .nil → res.lookup [] = some 1)
      ∧ (∀ p i, res.lookup p = some i →
          (subtreeAt root (p ++ [Dir.L]) ≠ .nil →
              res.lookup (p ++ [Dir.L]) = some (wrap32 (2 * i)))
          ∧ (subtreeAt root (p ++ [Dir.R]) ≠ .nil →
              res.lookup (p ++ [Dir.R]) = some (wrap32 (2 * i + 1))))
      ∧ (∀ p i, res.lookup p = some i → p.length < 30 →
          (subtreeAt root (p ++ [Dir.L]) ≠ .nil → res.lookup (p ++ [Dir.L]) = some (2 * i))
          ∧ (subtreeAt root (p ++ [Dir.R]) ≠ .nil →
              res.lookup (p ++ [Dir.R]) = some (2 * i + 1)))
      ∧ (∀ p i, res.lookup p = some i → p.length ≤ 30 →
          2 ^ p.length ≤ i ∧ i ≤ 2 ^ (p.length + 1) - 1)
      ∧ (∀ p q i, res.lookup p = some i → res.lookup q = some i →
          p.length ≤ 30 → q.length ≤ 30 → p = q) := by
  obtain ⟨res, h1, h2⟩ := assignHeapIndex_lookup root fuel hf
  have hval : ∀ p i, res.lookup p = some i →
      subtreeAt root p ≠ .nil ∧ i = wrap32 (heapIndex p) := by
    intro p i hl
    rw [h2] at hl
    split_ifs at hl with hp
    exact ⟨hp, (Option.some.inj hl).symm⟩
  refine ⟨res, h1, ?_, ?_, ?_, ?_, ?_, ?_⟩
  · intro p
    rw [h2]
    by_cases hp : subtreeAt root p = .nil <;> simp [hp]
  · intro hr
    rw [h2, if_neg (by simpa [subtreeAt] using hr)]
    rfl
  · intro p i hl
    obtain ⟨_, hi⟩ := hval p i hl
    constructor
    · intro hc
      rw [h2, if_neg hc, heapIndex_snoc_L, hi, mul_comm 2, wrap32_double]
    · intro hc
      rw [h2, if_neg hc, heapIndex_snoc_R, hi, mul_comm 2]
      congr 1
      obtain ⟨k, hk⟩ := wrap32_eq_add_multiple (heapIndex p)
      rw [hk]
      have e : (heapIndex p + 4294967296 * k) * 2 + 1
          = heapIndex p * 2 + 1 + 4294967296 * (k * 2) := by ring
      rw [e, wrap32_add_multiple]
  · intro p i hl hlen
    obtain ⟨_, hi⟩ := hval p i hl
    rw [wrap32_heapIndex_of_length_le p (by omega)] at hi
    constructor
    · intro hc
      rw [h2, if_neg hc, wrap32_heapIndex_of_length_le _ (by simp; omega),
        heapIndex_snoc_L, hi, mul_comm]
    · intro hc
      rw [h2, if_neg hc, wrap32_heapIndex_of_length_le _ (by simp; omega),
        heapIndex_snoc_R, hi, mul_comm]
  · intro p i hl hlen
    obtain ⟨_, hi⟩ := hval p i hl
    rw [wrap32_heapIndex_of_length_le p hlen] at hi
    rw [hi]
    exact heapIndex_bounds p
  · intro p q i hp hq hlp hlq
    obtain ⟨_, h3⟩ := hval p i hp
    obtain ⟨_, h4⟩ := hval q i hq
    rw [wrap32_heapIndex_of_length_le p hlp] at h3
    rw [wrap32_heapIndex_of_length_le q hlq] at h4
    exact heapIndex_injective p q (h3.symm.trans h4)

/-- Witness for the amended C15: in the tree 1 (2 (4) ()) (3), the map holds the indices
1, 2, 3, 4. -/
theorem assignHeapIndex_layout_to_depth_30_witness :
    ∃ res, assignHeapIndex 5 (.node 1 (.node 2 (.node 4 .nil .nil) .nil) (.node 3 .nil .nil))
        = .ok res
      ∧ res.lookup [] = some 1 ∧ res.lookup [Dir.L] = some 2 ∧ res.lookup [Dir.R] = some 3
      ∧ res.lookup [Dir.L, Dir.L] = some 4 ∧ res.lookup [Dir.L, Dir.R] = none := by
  obtain ⟨res, h1, _⟩ := assignHeapIndex_layout_to_depth_30
    (.node 1 (.node 2 (.node 4 .nil .nil) .nil) (.node 3 .nil .nil)) 5 (by decide)
  have h2 : assignHeapIndex 5 (.node 1 (.node 2 (.node 4 .nil .nil) .nil) (.node 3 .nil .nil))
      = .ok [([Dir.L, Dir.L], 4), ([Dir.R], 3), ([Dir.L], 2), ([], 1)] := by decide
  rw [h2] at h1
  cases h1
  exact ⟨_, h2, by decide, by decide, by decide, by decide, by decide⟩

/-! ## Proofs: parent map -/

theorem parentOf_snoc (a : Path) (d : Dir) : parentOf (a ++ [d]) = some a := by
  cases a with
  | nil => rfl
  | cons e a =>
    show some (((e :: a) ++ [d]).dropLast) = some (e :: a)
    rw [List.dropLast_concat]

theorem pathsWeight_append (root : TreeNode) (a b : List Path) :
    pathsWeight root (a ++ b) = pathsWeight root a + pathsWeight root b := by
  induction a with
  | nil => simp [pathsWeight]
  | cons e a ih => simp [pathsWeight, ih]; omega

theorem visitChild_spec (root : TreeNode) (a : Path) (d : Dir) (q : List Path)
    (m : PtrMap (Option Path)) :
    (visitChild root a d (q, m)).1 = q ++ pushedWith (subtreeAt root (a ++ [d])) (a ++ [d])
      ∧ ∀ p, (visitChild root a d (q, m)).2.lookup p
          = if p = a ++ [d] ∧ subtreeAt root (a ++ [d]) ≠ .nil then some (some a)
            else m.lookup p := by
  unfold visitChild
  cases hs : subtreeAt root (a ++ [d]) with
  | nil => simp [pushedWith]
  | node v l r =>
    refine ⟨by simp [pushedWith], ?_⟩
    intro p
    simp only [ptr_lookup_assign]
    by_cases hp : p = a ++ [d] <;> simp [hp]

theorem parentMapLoop_spec (fuel : Nat) (root : TreeNode) (q : List Path)
    (m : PtrMap (Option Path)) (hf : pathsWeight root q < fuel)
    (hq : ∀ a ∈ q, subtreeAt root a ≠ .nil ∧ m.lookup a = some (parentOf a))
    (hm : ∀ p v, m.lookup p = some v → subtreeAt root p ≠ .nil ∧ v = parentOf p)
    (hcov : ∀ p, subtreeAt root p ≠ .nil →
      m.lookup p = some (parentOf p) ∨ ∃ a ∈ q, a <+: p) :
    ∃ res, parentMapLoop fuel root q m = .ok res
      ∧ ∀ p, res.lookup p = if subtreeAt root p = .nil then none else some (parentOf p) := by
  induction fuel generalizing q m with
  | zero => omega
  | succ fuel ih =>
    cases q with
    | nil =>
      refine ⟨m, rfl, ?_⟩
      intro p
      by_cases hp : subtreeAt root p = .nil
      · rw [if_pos hp]
        cases hl : m.lookup p with
        | none => rfl
        | some v => exact absurd hp (hm p v hl).1
      · rw [if_neg hp]
        rcases hcov p hp with h | ⟨e, he, _⟩
        · exact h
        · simp at he
    | cons a q =>
      obtain ⟨ha, hla⟩ := hq a (by simp)
      obtain ⟨l1, l2⟩ := visitChild_spec root a Dir.L q m
      obtain ⟨r1, r2⟩ := visitChild_spec root a Dir.R
        (visitChild root a Dir.L (q, m)).1 (visitChild root a Dir.L (q, m)).2
      have hlook : ∀ p, (visitChild root a Dir.R (visitChild root a Dir.L (q, m))).2.lookup p
          = if p = a ++ [Dir.R] ∧ subtreeAt root (a ++ [Dir.R]) ≠ .nil then some (some a)
            else if p = a ++ [Dir.L] ∧ subtreeAt root (a ++ [Dir.L]) ≠ .nil then some (some a)
            else m.lookup p := by
        intro p
        rw [r2 p, l2 p]
      have hqueue : (visitChild root a Dir.R (visitChild root a Dir.L (q, m))).1
          = q ++ pushedWith (subtreeAt root (a ++ [Dir.L])) (a ++ [Dir.L])
              ++ pushedWith (subtreeAt root (a ++ [Dir.R])) (a ++ [Dir.R]) := by
        rw [r1, l1]
      have hmono : ∀ p, m.lookup p = some (parentOf p) →
          (visitChild root a Dir.R (visitChild root a Dir.L (q, m))).2.lookup p
            = some (parentOf p) := by
        intro p hp
        rw [hlook]
        split_ifs with h1 h2
        · rw [h1.1, parentOf_snoc]
        · rw [h2.1, parentOf_snoc]
        · exact hp
      simp only [parentMapLoop]
      apply ih
      · rw [hqueue, pathsWeight_append, pathsWeight_append]
        have hw : pathsWeight root (a :: q) = (subtreeAt root a).size + pathsWeight root q := rfl
        rw [hw] at hf
        have e1 : pathsWeight root (pushedWith (subtreeAt root (a ++ [Dir.L])) (a ++ [Dir.L]))
            = (leftOf (subtreeAt root a)).size := by
          rw [← subtreeAt_snoc_L]
          cases hs : subtreeAt root (a ++ [Dir.L]) <;> simp [pushedWith, pathsWeight, hs, TreeNode.size]
        have e2 : pathsWeight root (pushedWith (subtreeAt root (a ++ [Dir.R])) (a ++ [Dir.R]))
            = (rightOf (subtreeAt root a)).size := by
          rw [← subtreeAt_snoc_R]
          cases hs : subtreeAt root (a ++ [Dir.R]) <;> simp [pushedWith, pathsWeight, hs, TreeNode.size]
        rw [e1, e2]
        cases hs : subtreeAt root a with
        | nil => exact absurd hs ha
        | node v l r =>
          rw [hs] at hf
          simp only [TreeNode.size, leftOf, rightOf] at hf ⊢
          omega
      · intro c hc
        rw [hqueue] at hc
        simp only [List.mem_append] at hc
        rcases hc with (hc | hc) | hc
        · obtain ⟨h1, h2⟩ := hq c (by simp [hc])
          exact ⟨h1, hmono c h2⟩
        · obtain ⟨h1, h2⟩ := mem_pushedWith _ _ _ hc
          subst h2
          refine ⟨h1, ?_⟩
          rw [hlook, parentOf_snoc]
          split_ifs with h3 h4
          · rfl
          · rfl
          · exact absurd ⟨rfl, h1⟩ h4
        · obtain ⟨h1, h2⟩ := mem_pushedWith _ _ _ hc
          subst h2
          refine ⟨h1, ?_⟩
          rw [hlook, parentOf_snoc, if_pos ⟨rfl, h1⟩]
      · intro p v hl
        rw [hlook] at hl
        split_ifs at hl with h1 h2
        · cases hl
          rw [h1.1, parentOf_snoc]
          exact ⟨h1.2, rfl⟩
        · cases hl
          rw [h2.1, parentOf_snoc]
          exact ⟨h2.2, rfl⟩
        · exact hm p v hl
      · intro p hp
        rcases hcov p hp with h | ⟨e, he, hpre⟩
        · exact Or.inl (hmono p h)
        · rcases List.mem_cons.mp he with he | he
          · subst he
            by_cases hpe : p = e
            · subst hpe
              exact Or.inl (hmono p hla)
            · right
              obtain ⟨d, hd, hpres⟩ := child_of_strict_isPrefix root e p hpre hpe hp
              refine ⟨e ++ [d], ?_, hd⟩
              rw [hqueue]
              cases d with
              | L =>
                cases hs : subtreeAt root (e ++ [Dir.L]) with
                | nil => exact absurd hs hpres
                | node v l r => simp [pushedWith]
              | R =>
                cases hs : subtreeAt root (e ++ [Dir.R]) with
                | nil => exact absurd hs hpres
                | node v l r => simp [pushedWith]
          · right
            exact ⟨e, by rw [hqueue]; simp [he], hpre⟩

theorem buildParentMap_lookup (root : TreeNode) (fuel : Nat) (hf : root.size < fuel) :
    ∃ res, buildParentMap fuel root = .ok res
      ∧ ∀ p, res.lookup p = if subtreeAt root p = .nil then none else some (parentOf p) := by
  cases root with
  | nil =>
    refine ⟨[], rfl, ?_⟩
    intro p
    cases p <;> simp [subtreeAt]
  | node v l r =>
    apply parentMapLoop_spec
    · simpa [pathsWeight, subtreeAt] using hf
    · intro a ha
      simp only [List.mem_singleton] at ha
      subst ha
      exact ⟨by simp [subtreeAt], by rw [ptr_lookup_assign]; rfl⟩
    · intro p w hl
      rw [ptr_lookup_assign] at hl
      split_ifs at hl with hp
      · subst hp
        cases hl
        exact ⟨by simp [subtreeAt], rfl⟩
      · simp at hl
    · intro p _
      exact Or.inr ⟨[], by simp, List.nil_prefix⟩

/-- C16: `buildParentMap` returns a map whose keys are exactly the nodes of the tree (no
key for the absent tree); the root is sent to the null pointer and every other node to
the node it is the left or right child of. -/
theorem buildParentMap_parents (root : TreeNode) (fuel : Nat) (hf : root.size < fuel) :
    ∃ res, buildParentMap fuel root = .ok res
      ∧ (∀ p, res.lookup p ≠ none ↔ subtreeAt root p ≠ .nil)
      ∧ (root = .nil → res = [])
      ∧ (root ≠ .nil → res.lookup [] = some none)
      ∧ (∀ a d, subtreeAt root (a ++ [d]) ≠ .nil → res.lookup (a ++ [d]) = some (some a))
      ∧ (∀ c a, res.lookup c = some (some a) → ∃ d, c = a ++ [d]) := by
  obtain ⟨res, h1, h2⟩ := buildParentMap_lookup root fuel hf
  refine ⟨res, h1, ?_, ?_, ?_, ?_, ?_⟩
  · intro p
    rw [h2]
    by_cases hp : subtreeAt root p = .nil <;> simp [hp]
  · intro hr
    subst hr
    have : buildParentMap fuel .nil = .ok [] := rfl
    rw [this] at h1
    exact (Run.ok.inj h1).symm
  · intro hr
    rw [h2, if_neg (by simpa [subtreeAt] using hr)]
    rfl
  · intro a d hc
    rw [h2, if_neg hc, parentOf_snoc]
  · intro c a hl
    rw [h2] at hl
    split_ifs at hl with hc
    rcases List.eq_nil_or_concat c with hn | ⟨c2, d, hcd⟩
    · subst hn
      simp [parentOf] at hl
    · rw [List.concat_eq_append] at hcd
      subst hcd
      rw [parentOf_snoc] at hl
      have : c2 = a := Option.some.inj (Option.some.inj hl)
      exact ⟨d, by rw [this]⟩

/-- Witness for C16: in the tree 1 (2 (4) ()) (3), node 4 has parent 2 and the root none. -/
theorem buildParentMap_parents_witness :
    ∃ res, buildParentMap 5 (.node 1 (.node 2 (.node 4 .nil .nil) .nil) (.node 3 .nil .nil))
        = .ok res
      ∧ res.lookup [] = some none ∧ res.lookup [Dir.L] = some (some [])
      ∧ res.lookup [Dir.R] = some (some [])
      ∧ res.lookup [Dir.L, Dir.L] = some (some [Dir.L]) ∧ res.lookup [Dir.L, Dir.R] = none := by
  obtain ⟨res, h1, _, _, h4, h5, _⟩ := buildParentMap_parents
    (.node 1 (.node 2 (.node 4 .nil .nil) .nil) (.node 3 .nil .nil)) 5 (by decide)
  have h2 : buildParentMap 5 (.node 1 (.node 2 (.node 4 .nil .nil) .nil) (.node 3 .nil .nil))
      = .ok [([Dir.L, Dir.L], some [Dir.L]), ([Dir.R], some []), ([Dir.L], some []),
          ([], none)] := by decide
  rw [h2] at h1
  cases h1
  exact ⟨_, h2, by decide, by decide, by decide, by decide, by decide⟩

end TreePatterns
